import Mathlib

/-!
# Verification of `django-roesti` (`roesti/models.py`)

A shallow embedding of the content-addressable record store implemented in
`roesti/models.py`, together with proofs about its specification.

Modelling conventions:

* Python values that participate in hashing are modelled by the inductive type
  `Value`: integers, strings, `None`, tuples, lists, dicts and sets.  A dict is
  its list of key/value pairs in insertion order (Python 3.7+ semantics); a set
  is represented by the list of inserted elements, deduplicated when the set is
  consumed (`pyDedup`), since Python set construction deduplicates.
* `md5(pickle.dumps(freeze(obj))).hexdigest()` is modelled by the injective
  constructor `Value.digest`: `pickle.dumps` is injective on the structures the
  code hashes and the digest is idealized as collision-free, which is the
  "practically unique" assumption the specification itself makes (section 4.2).
  A digest is a hex string in Python, hence a scalar that can be stored in
  fields, compared and sorted; the model orders digests structurally rather
  than by their hexadecimal text, which only changes *which* fixed total order
  sorted collections of digests use, never any equality or inequality of
  hashes.
* Python 3 comparison (`<`) is partial: `1 < "a"` and `None < None` raise
  `TypeError`.  `pyLt` returns an `Option Bool`; `sorted` is modelled by
  `sortPy`, which fails exactly when some pair of elements is incomparable
  (CPython's timsort examines every adjacent pair during run detection, so a
  mixed-type collection always raises).
* A Django related manager read outside resolution (a reverse-relation
  accessor whose reverse instances are not in the index) is the opaque leaf
  `Value.manager`; pickling it fails, which `make_hash` reflects by returning
  `none` when one is present in the frozen value.
-/

/-- Comparison of characters by Unicode codepoint (Python's string order). -/
def ccmp (a b : Char) : Ordering := cmp a.val.toNat b.val.toNat

/-- Lexicographic comparison of character lists. -/
def slcmp : List Char → List Char → Ordering
  | [], [] => .eq
  | [], _ :: _ => .lt
  | _ :: _, [] => .gt
  | a :: as, b :: bs =>
    match ccmp a b with
    | .eq => slcmp as bs
    | o => o

/-- Comparison of strings by codepoint, as Python compares `str`. -/
def scmp (a b : String) : Ordering := slcmp a.data b.data

theorem ccmp_swap (a b : Char) : (ccmp a b).swap = ccmp b a := cmp_swap _ _

theorem ccmp_eq_iff {a b : Char} : ccmp a b = .eq ↔ a = b := by
  unfold ccmp
  rw [cmp_eq_eq_iff]
  constructor
  · intro h
    exact Char.ext (UInt32.ext h)
  · rintro rfl; rfl

theorem ccmp_lt_trans {a b c : Char} (h1 : ccmp a b = .lt) (h2 : ccmp b c = .lt) :
    ccmp a c = .lt := by
  unfold ccmp at *
  rw [cmp_eq_lt_iff] at *
  omega

theorem slcmp_swap : ∀ as bs, (slcmp as bs).swap = slcmp bs as := by
  intro as
  induction as with
  | nil => intro bs; cases bs <;> rfl
  | cons a as ih =>
    intro bs
    cases bs with
    | nil => rfl
    | cons b bs =>
      simp only [slcmp]
      rw [← ccmp_swap a b]
      rcases ccmp a b <;> first | rfl | exact ih bs

theorem slcmp_eq_iff : ∀ {as bs}, slcmp as bs = .eq ↔ as = bs := by
  intro as
  induction as with
  | nil => intro bs; cases bs <;> simp [slcmp]
  | cons a as ih =>
    intro bs
    cases bs with
    | nil => simp [slcmp]
    | cons b bs =>
      simp only [slcmp]
      rcases h : ccmp a b with _ | _ | _
      · simp only [List.cons.injEq]
        constructor
        · intro hx; cases hx
        · rintro ⟨rfl, _⟩
          rw [ccmp_eq_iff.mpr rfl] at h
          cases h
      · have := ccmp_eq_iff.mp h
        subst this
        simp [ih]
      · simp only [List.cons.injEq]
        constructor
        · intro hx; cases hx
        · rintro ⟨rfl, _⟩
          rw [ccmp_eq_iff.mpr rfl] at h
          cases h

theorem slcmp_lt_trans : ∀ {as bs cs}, slcmp as bs = .lt → slcmp bs cs = .lt →
    slcmp as cs = .lt := by
  intro as
  induction as with
  | nil =>
    intro bs cs h1 h2
    cases bs with
    | nil => cases h1
    | cons b bs =>
      cases cs with
      | nil => cases h2
      | cons c cs => rfl
  | cons a as ih =>
    intro bs cs h1 h2
    cases bs with
    | nil => cases h1
    | cons b bs =>
      cases cs with
      | nil => cases h2
      | cons c cs =>
        simp only [slcmp] at h1 h2 ⊢
        rcases hab : ccmp a b with _ | _ | _
        · rcases hbc : ccmp b c with _ | _ | _
          · rw [ccmp_lt_trans hab hbc]
          · have hbceq := ccmp_eq_iff.mp hbc; subst hbceq
            rw [hab]
          · rw [hbc] at h2
            simp at h2
        · have habeq := ccmp_eq_iff.mp hab; subst habeq
          rcases hbc : ccmp a c with _ | _ | _
          · rfl
          · rw [hab] at h1
            rw [hbc] at h2
            exact ih h1 h2
          · rw [hbc] at h2
            simp at h2
        · rw [hab] at h1
          simp at h1

theorem scmp_swap (a b : String) : (scmp a b).swap = scmp b a := slcmp_swap _ _

theorem scmp_eq_iff {a b : String} : scmp a b = .eq ↔ a = b := by
  unfold scmp
  rw [slcmp_eq_iff]
  exact ⟨fun h => by cases a; cases b; exact congrArg String.mk h, fun h => by rw [h]⟩

theorem scmp_lt_trans {a b c : String} (h1 : scmp a b = .lt) (h2 : scmp b c = .lt) :
    scmp a c = .lt := slcmp_lt_trans h1 h2

theorem scmp_self (a : String) : scmp a a = .eq := scmp_eq_iff.mpr rfl

/-- A Python value, as far as `roesti` manipulates them. -/
inductive Value : Type where
  | int : Int → Value
  | str : String → Value
  | pynone : Value
  | digest : Value → Value
  | manager : String → String → Value
  | vtuple : List Value → Value
  | vlist : List Value → Value
  | vdict : List (Value × Value) → Value
  | vset : List Value → Value

/-- Constructor tag, used to order values of different shapes. -/
def Value.tag : Value → Nat
  | .int _ => 0
  | .str _ => 1
  | .pynone => 2
  | .digest _ => 3
  | .manager _ _ => 4
  | .vtuple _ => 5
  | .vlist _ => 6
  | .vdict _ => 7
  | .vset _ => 8

mutual
/-- Total structural comparison on values.  On pairs that Python can compare
(`int`/`int`, `str`/`str`, tuples of such) it agrees with Python's order;
elsewhere it is an arbitrary fixed linear order used only to make the model's
sort total. -/
def vcmp : Value → Value → Ordering
  | .int a, .int b => cmp a b
  | .str a, .str b => scmp a b
  | .pynone, .pynone => .eq
  | .digest a, .digest b => vcmp a b
  | .manager m f, .manager m' f' =>
    match scmp m m' with
    | .eq => scmp f f'
    | o => o
  | .vtuple a, .vtuple b => vcmpL a b
  | .vlist a, .vlist b => vcmpL a b
  | .vdict a, .vdict b => vcmpKV a b
  | .vset a, .vset b => vcmpL a b
  | a, b => cmp a.tag b.tag

/-- Lexicographic comparison of value lists (Python tuple/list comparison). -/
def vcmpL : List Value → List Value → Ordering
  | [], [] => .eq
  | [], _ :: _ => .lt
  | _ :: _, [] => .gt
  | a :: as, b :: bs =>
    match vcmp a b with
    | .eq => vcmpL as bs
    | o => o

/-- Lexicographic comparison of key/value pair lists. -/
def vcmpKV : List (Value × Value) → List (Value × Value) → Ordering
  | [], [] => .eq
  | [], _ :: _ => .lt
  | _ :: _, [] => .gt
  | (k, v) :: as, (k', v') :: bs =>
    match vcmp k k' with
    | .eq =>
      match vcmp v v' with
      | .eq => vcmpKV as bs
      | o => o
    | o => o
end

theorem tag_int {b : Value} (h : b.tag = 0) : ∃ x, b = .int x := by
  cases b <;> simp_all [Value.tag]

theorem tag_str {b : Value} (h : b.tag = 1) : ∃ x, b = .str x := by
  cases b <;> simp_all [Value.tag]

theorem tag_pynone {b : Value} (h : b.tag = 2) : b = .pynone := by
  cases b <;> simp_all [Value.tag]

theorem tag_digest {b : Value} (h : b.tag = 3) : ∃ x, b = .digest x := by
  cases b <;> simp_all [Value.tag]

theorem tag_manager {b : Value} (h : b.tag = 4) : ∃ x y, b = .manager x y := by
  cases b <;> simp_all [Value.tag]

theorem tag_vtuple {b : Value} (h : b.tag = 5) : ∃ x, b = .vtuple x := by
  cases b <;> simp_all [Value.tag]

theorem tag_vlist {b : Value} (h : b.tag = 6) : ∃ x, b = .vlist x := by
  cases b <;> simp_all [Value.tag]

theorem tag_vdict {b : Value} (h : b.tag = 7) : ∃ x, b = .vdict x := by
  cases b <;> simp_all [Value.tag]

theorem tag_vset {b : Value} (h : b.tag = 8) : ∃ x, b = .vset x := by
  cases b <;> simp_all [Value.tag]

theorem vcmp_tag_ne {a b : Value} (h : a.tag ≠ b.tag) :
    vcmp a b = cmp a.tag b.tag := by
  cases a <;> cases b <;> first
    | exact absurd rfl h
    | rw [vcmp.eq_def]

theorem vcmp_swap : ∀ a b, (vcmp a b).swap = vcmp b a := by
  refine vcmp.induct
    (fun a b => (vcmp a b).swap = vcmp b a)
    (fun as bs => (vcmpKV as bs).swap = vcmpKV bs as)
    (fun as bs => (vcmpL as bs).swap = vcmpL bs as)
    ?_ ?_ ?_ ?_ ?_ ?_ ?_ ?_ ?_ ?_ ?_ ?_ ?_ ?_ ?_ ?_ ?_ ?_ ?_ ?_ ?_ ?_
  · intro a b; simp only [vcmp]; exact cmp_swap a b
  · intro a b; simp only [vcmp]; exact scmp_swap a b
  · simp only [vcmp]; rfl
  · intro a b ih; simp only [vcmp]; exact ih
  · intro m f m' f' h
    have hm : m = m' := scmp_eq_iff.mp h
    subst hm
    simp only [vcmp, scmp_self]
    exact scmp_swap f f'
  · intro m f m' f' h
    simp only [vcmp]
    rcases h2 : scmp m m' with _ | _ | _
    · have : scmp m' m = .gt := by rw [← scmp_swap, h2]; rfl
      rw [this]; rfl
    · exact absurd h2 h
    · have : scmp m' m = .lt := by rw [← scmp_swap, h2]; rfl
      rw [this]; rfl
  · intro a b ih; simp only [vcmp]; exact ih
  · intro a b ih; simp only [vcmp]; exact ih
  · intro a b ih; simp only [vcmp]; exact ih
  · intro a b ih; simp only [vcmp]; exact ih
  · intro a b n1 n2 n3 n4 n5 n6 n7 n8 n9
    have htag : a.tag ≠ b.tag := by
      intro h
      cases a with
      | int x => obtain ⟨y, rfl⟩ := tag_int h.symm; exact n1 x y rfl rfl
      | str x => obtain ⟨y, rfl⟩ := tag_str h.symm; exact n2 x y rfl rfl
      | pynone => exact n3 rfl (tag_pynone h.symm)
      | digest x => obtain ⟨y, rfl⟩ := tag_digest h.symm; exact n4 x y rfl rfl
      | manager x y => obtain ⟨x', y', rfl⟩ := tag_manager h.symm; exact n5 x y x' y' rfl rfl
      | vtuple x => obtain ⟨y, rfl⟩ := tag_vtuple h.symm; exact n6 x y rfl rfl
      | vlist x => obtain ⟨y, rfl⟩ := tag_vlist h.symm; exact n7 x y rfl rfl
      | vdict x => obtain ⟨y, rfl⟩ := tag_vdict h.symm; exact n8 x y rfl rfl
      | vset x => obtain ⟨y, rfl⟩ := tag_vset h.symm; exact n9 x y rfl rfl
    rw [vcmp_tag_ne htag, vcmp_tag_ne (Ne.symm htag)]
    exact cmp_swap _ _
  · rfl
  · intro h t; rfl
  · intro h t; rfl
  · intro a as b bs h ih1 ihL
    have hba : vcmp b a = .eq := by rw [← ih1, h]; rfl
    simp only [vcmpL, h, hba]
    exact ihL
  · intro a as b bs h ih1
    simp only [vcmpL]
    rcases h2 : vcmp a b with _ | _ | _
    · have hba : vcmp b a = .gt := by rw [← ih1, h2]; rfl
      rw [hba]; rfl
    · exact absurd h2 h
    · have hba : vcmp b a = .lt := by rw [← ih1, h2]; rfl
      rw [hba]; rfl
  · rfl
  · intro h t; rfl
  · intro h t; rfl
  · intro k v as k' v' bs hk hv ihk ihv ihKV
    have hk' : vcmp k' k = .eq := by rw [← ihk, hk]; rfl
    have hv' : vcmp v' v = .eq := by rw [← ihv, hv]; rfl
    simp only [vcmpKV, hk, hv, hk', hv']
    exact ihKV
  · intro k v as k' v' bs hk hv ihk ihv
    have hk' : vcmp k' k = .eq := by rw [← ihk, hk]; rfl
    simp only [vcmpKV, hk, hk']
    rcases h2 : vcmp v v' with _ | _ | _
    · have hv' : vcmp v' v = .gt := by rw [← ihv, h2]; rfl
      rw [hv']; rfl
    · exact absurd h2 hv
    · have hv' : vcmp v' v = .lt := by rw [← ihv, h2]; rfl
      rw [hv']; rfl
  · intro k v as k' v' bs hk ihk
    simp only [vcmpKV]
    rcases h2 : vcmp k k' with _ | _ | _
    · have hk' : vcmp k' k = .gt := by rw [← ihk, h2]; rfl
      rw [hk']; rfl
    · exact absurd h2 hk
    · have hk' : vcmp k' k = .lt := by rw [← ihk, h2]; rfl
      rw [hk']; rfl

theorem vcmp_eq_iff : ∀ a b, vcmp a b = .eq ↔ a = b := by
  refine vcmp.induct
    (fun a b => (vcmp a b = .eq ↔ a = b))
    (fun as bs => (vcmpKV as bs = .eq ↔ as = bs))
    (fun as bs => (vcmpL as bs = .eq ↔ as = bs))
    ?_ ?_ ?_ ?_ ?_ ?_ ?_ ?_ ?_ ?_ ?_ ?_ ?_ ?_ ?_ ?_ ?_ ?_ ?_ ?_ ?_ ?_
  · intro a b; simp only [vcmp, Value.int.injEq]; exact cmp_eq_eq_iff a b
  · intro a b; simp only [vcmp, Value.str.injEq]; exact scmp_eq_iff
  · simp only [vcmp]
  · intro a b ih; simp only [vcmp, Value.digest.injEq]; exact ih
  · intro m f m' f' h
    have hm : m = m' := scmp_eq_iff.mp h
    subst hm
    simp only [vcmp, scmp_self, Value.manager.injEq, true_and]
    exact scmp_eq_iff
  · intro m f m' f' h
    have hm : m ≠ m' := fun e => h (e ▸ scmp_self m)
    simp only [vcmp, Value.manager.injEq]
    rcases h2 : scmp m m' with _ | _ | _
    · simp [hm]
    · exact absurd h2 h
    · simp [hm]
  · intro a b ih; simp only [vcmp, Value.vtuple.injEq]; exact ih
  · intro a b ih; simp only [vcmp, Value.vlist.injEq]; exact ih
  · intro a b ih; simp only [vcmp, Value.vdict.injEq]; exact ih
  · intro a b ih; simp only [vcmp, Value.vset.injEq]; exact ih
  · intro a b n1 n2 n3 n4 n5 n6 n7 n8 n9
    have htag : a.tag ≠ b.tag := by
      intro h
      cases a with
      | int x => obtain ⟨y, rfl⟩ := tag_int h.symm; exact n1 x y rfl rfl
      | str x => obtain ⟨y, rfl⟩ := tag_str h.symm; exact n2 x y rfl rfl
      | pynone => exact n3 rfl (tag_pynone h.symm)
      | digest x => obtain ⟨y, rfl⟩ := tag_digest h.symm; exact n4 x y rfl rfl
      | manager x y => obtain ⟨x', y', rfl⟩ := tag_manager h.symm; exact n5 x y x' y' rfl rfl
      | vtuple x => obtain ⟨y, rfl⟩ := tag_vtuple h.symm; exact n6 x y rfl rfl
      | vlist x => obtain ⟨y, rfl⟩ := tag_vlist h.symm; exact n7 x y rfl rfl
      | vdict x => obtain ⟨y, rfl⟩ := tag_vdict h.symm; exact n8 x y rfl rfl
      | vset x => obtain ⟨y, rfl⟩ := tag_vset h.symm; exact n9 x y rfl rfl
    rw [vcmp_tag_ne htag]
    constructor
    · intro h
      exact absurd (cmp_eq_eq_iff _ _ |>.mp h) htag
    · rintro rfl
      exact absurd rfl htag
  · simp [vcmpL]
  · intro h t; simp [vcmpL]
  · intro h t; simp [vcmpL]
  · intro a as b bs h ih1 ihL
    have hab : a = b := ih1.mp h
    subst hab
    simp only [vcmpL, h, List.cons.injEq, true_and]
    exact ihL
  · intro a as b bs h ih1
    have hne : a ≠ b := fun e => h (ih1.mpr e)
    simp only [vcmpL, List.cons.injEq]
    rcases h2 : vcmp a b with _ | _ | _
    · simp [hne]
    · exact absurd h2 h
    · simp [hne]
  · simp [vcmpKV]
  · intro h t; simp [vcmpKV]
  · intro h t; simp [vcmpKV]
  · intro k v as k' v' bs hk hv ihk ihv ihKV
    have h1 : k = k' := ihk.mp hk
    have h2 : v = v' := ihv.mp hv
    subst h1; subst h2
    simp only [vcmpKV, hk, hv, List.cons.injEq, Prod.mk.injEq, true_and]
    exact ihKV
  · intro k v as k' v' bs hk hv ihk ihv
    have h1 : k = k' := ihk.mp hk
    subst h1
    have hne : v ≠ v' := fun e => hv (ihv.mpr e)
    simp only [vcmpKV, hk, List.cons.injEq, Prod.mk.injEq, true_and]
    rcases h2 : vcmp v v' with _ | _ | _
    · simp [hne]
    · exact absurd h2 hv
    · simp [hne]
  · intro k v as k' v' bs hk ihk
    have hne : k ≠ k' := fun e => hk (ihk.mpr e)
    simp only [vcmpKV, List.cons.injEq, Prod.mk.injEq]
    rcases h2 : vcmp k k' with _ | _ | _
    · simp [hne]
    · exact absurd h2 hk
    · simp [hne]

theorem vcmp_self (a : Value) : vcmp a a = .eq := (vcmp_eq_iff a a).mpr rfl

instance : DecidableEq Value := fun a b =>
  decidable_of_iff (vcmp a b = .eq) (vcmp_eq_iff a b)

theorem vcmp_trans_aux : ∀ n : Nat,
    (∀ a b c : Value, sizeOf a + sizeOf b + sizeOf c ≤ n →
      vcmp a b = .lt → vcmp b c = .lt → vcmp a c = .lt) ∧
    (∀ as bs cs : List Value, sizeOf as + sizeOf bs + sizeOf cs ≤ n →
      vcmpL as bs = .lt → vcmpL bs cs = .lt → vcmpL as cs = .lt) ∧
    (∀ as bs cs : List (Value × Value), sizeOf as + sizeOf bs + sizeOf cs ≤ n →
      vcmpKV as bs = .lt → vcmpKV bs cs = .lt → vcmpKV as cs = .lt) := by
  intro n
  induction n using Nat.strong_induction_on with
  | _ n ih =>
  refine ⟨?_, ?_, ?_⟩
  · intro a b c hn h1 h2
    by_cases hab : a.tag = b.tag <;> by_cases hbc : b.tag = c.tag
    · -- all tags equal: same constructor for all three
      cases a with
      | int x =>
        obtain ⟨y, rfl⟩ := tag_int hab.symm
        obtain ⟨z, rfl⟩ := tag_int hbc.symm
        simp only [vcmp] at h1 h2 ⊢
        rw [cmp_eq_lt_iff] at h1 h2 ⊢
        omega
      | str x =>
        obtain ⟨y, rfl⟩ := tag_str hab.symm
        obtain ⟨z, rfl⟩ := tag_str hbc.symm
        simp only [vcmp] at h1 h2 ⊢
        exact scmp_lt_trans h1 h2
      | pynone =>
        have hb := tag_pynone hab.symm
        subst hb
        simp [vcmp] at h1
      | digest x =>
        obtain ⟨y, rfl⟩ := tag_digest hab.symm
        obtain ⟨z, rfl⟩ := tag_digest hbc.symm
        simp only [vcmp] at h1 h2 ⊢
        rcases n with _ | m
        · simp at hn
        · exact (ih m (Nat.lt_succ_self m)).1 x y z (by simp at hn; omega) h1 h2
      | manager mx fx =>
        obtain ⟨my, fy, rfl⟩ := tag_manager hab.symm
        obtain ⟨mz, fz, rfl⟩ := tag_manager hbc.symm
        simp only [vcmp] at h1 h2 ⊢
        rcases hxy : scmp mx my with _ | _ | _ <;> rw [hxy] at h1
        · rcases hyz : scmp my mz with _ | _ | _ <;> rw [hyz] at h2
          · rw [scmp_lt_trans hxy hyz]
          · have e := scmp_eq_iff.mp hyz; subst e; rw [hxy]
          · simp at h2
        · have e := scmp_eq_iff.mp hxy; subst e
          rcases hyz : scmp mx mz with _ | _ | _
          · rfl
          · rw [hyz] at h2
            exact scmp_lt_trans h1 h2
          · rw [hyz] at h2
            simp at h2
        · simp at h1
      | vtuple x =>
        obtain ⟨y, rfl⟩ := tag_vtuple hab.symm
        obtain ⟨z, rfl⟩ := tag_vtuple hbc.symm
        simp only [vcmp] at h1 h2 ⊢
        rcases n with _ | m
        · simp at hn
        · exact (ih m (Nat.lt_succ_self m)).2.1 x y z (by simp at hn; omega) h1 h2
      | vlist x =>
        obtain ⟨y, rfl⟩ := tag_vlist hab.symm
        obtain ⟨z, rfl⟩ := tag_vlist hbc.symm
        simp only [vcmp] at h1 h2 ⊢
        rcases n with _ | m
        · simp at hn
        · exact (ih m (Nat.lt_succ_self m)).2.1 x y z (by simp at hn; omega) h1 h2
      | vdict x =>
        obtain ⟨y, rfl⟩ := tag_vdict hab.symm
        obtain ⟨z, rfl⟩ := tag_vdict hbc.symm
        simp only [vcmp] at h1 h2 ⊢
        rcases n with _ | m
        · simp at hn
        · exact (ih m (Nat.lt_succ_self m)).2.2 x y z (by simp at hn; omega) h1 h2
      | vset x =>
        obtain ⟨y, rfl⟩ := tag_vset hab.symm
        obtain ⟨z, rfl⟩ := tag_vset hbc.symm
        simp only [vcmp] at h1 h2 ⊢
        rcases n with _ | m
        · simp at hn
        · exact (ih m (Nat.lt_succ_self m)).2.1 x y z (by simp at hn; omega) h1 h2
    · -- a.tag = b.tag, b.tag ≠ c.tag
      have hac : a.tag ≠ c.tag := fun e => hbc (hab ▸ e)
      rw [vcmp_tag_ne hbc] at h2
      rw [vcmp_tag_ne hac, hab]
      exact h2
    · -- a.tag ≠ b.tag, b.tag = c.tag
      have hac : a.tag ≠ c.tag := fun e => hab (hbc ▸ e)
      rw [vcmp_tag_ne hab] at h1
      rw [vcmp_tag_ne hac, ← hbc]
      exact h1
    · -- both tag steps differ
      rw [vcmp_tag_ne hab, cmp_eq_lt_iff] at h1
      rw [vcmp_tag_ne hbc, cmp_eq_lt_iff] at h2
      have hac : a.tag ≠ c.tag := by omega
      rw [vcmp_tag_ne hac, cmp_eq_lt_iff]
      omega
  · intro as bs cs hn h1 h2
    match as, bs, cs with
    | _, [], [] => cases h2
    | _, _ :: _, [] => cases h2
    | [], [], _ :: _ => cases h1
    | _ :: _, [], _ :: _ => cases h1
    | [], _ :: _, _ :: _ => rfl
    | a :: as, b :: bs, c :: cs =>
      simp only [vcmpL] at h1 h2 ⊢
      rcases n with _ | m
      · simp at hn
      · have ihV := (ih m (Nat.lt_succ_self m)).1
        have ihL := (ih m (Nat.lt_succ_self m)).2.1
        rcases hab : vcmp a b with _ | _ | _ <;> rw [hab] at h1
        · rcases hbc : vcmp b c with _ | _ | _ <;> rw [hbc] at h2
          · rw [ihV a b c (by simp at hn; omega) hab hbc]
          · have e := (vcmp_eq_iff b c).mp hbc; subst e; rw [hab]
          · simp at h2
        · have e := (vcmp_eq_iff a b).mp hab; subst e
          rcases hbc : vcmp a c with _ | _ | _
          · rfl
          · rw [hbc] at h2
            exact ihL as bs cs (by simp at hn; omega) h1 h2
          · rw [hbc] at h2
            simp at h2
        · simp at h1
  · intro as bs cs hn h1 h2
    match as, bs, cs with
    | _, [], [] => cases h2
    | _, _ :: _, [] => cases h2
    | [], [], _ :: _ => cases h1
    | _ :: _, [], _ :: _ => cases h1
    | [], _ :: _, _ :: _ => rfl
    | (ka, va) :: as, (kb, vb) :: bs, (kc, vc) :: cs =>
      simp only [vcmpKV] at h1 h2 ⊢
      rcases n with _ | m
      · simp at hn
      · have ihV := (ih m (Nat.lt_succ_self m)).1
        have ihKV := (ih m (Nat.lt_succ_self m)).2.2
        rcases hk1 : vcmp ka kb with _ | _ | _ <;> rw [hk1] at h1
        · rcases hk2 : vcmp kb kc with _ | _ | _ <;> rw [hk2] at h2
          · rw [ihV ka kb kc (by simp at hn; omega) hk1 hk2]
          · have e := (vcmp_eq_iff kb kc).mp hk2; subst e; rw [hk1]
          · simp at h2
        · have e := (vcmp_eq_iff ka kb).mp hk1; subst e
          rcases hk2 : vcmp ka kc with _ | _ | _
          · rfl
          · -- keys all equal, compare values
            rw [hk2] at h2
            rcases hv1 : vcmp va vb with _ | _ | _
            · rcases hv2 : vcmp vb vc with _ | _ | _
              · rw [ihV va vb vc (by simp at hn; omega) hv1 hv2]
              · have e := (vcmp_eq_iff vb vc).mp hv2; subst e; rw [hv1]
              · rw [hv2] at h2
                simp at h2
            · rw [hv1] at h1
              have e := (vcmp_eq_iff va vb).mp hv1; subst e
              rcases hv2 : vcmp va vc with _ | _ | _
              · rfl
              · rw [hv2] at h2
                exact ihKV as bs cs (by simp at hn; omega) h1 h2
              · rw [hv2] at h2
                simp at h2
            · rw [hv1] at h1
              simp at h1
          · rw [hk2] at h2
            simp at h2
        · simp at h1

theorem vcmp_lt_trans {a b c : Value} (h1 : vcmp a b = .lt) (h2 : vcmp b c = .lt) :
    vcmp a c = .lt :=
  (vcmp_trans_aux (sizeOf a + sizeOf b + sizeOf c)).1 a b c le_rfl h1 h2

/-- The sort relation Python's `sorted` is modelled with: `a` precedes `b`. -/
def vble (a b : Value) : Prop := vcmp a b ≠ .gt

instance : DecidableRel vble := fun a b => by unfold vble; infer_instance

instance : IsTotal Value vble := by
  constructor
  intro a b
  unfold vble
  rcases h : vcmp a b with _ | _ | _
  · left; simp [h]
  · left; simp [h]
  · right
    have := vcmp_swap a b
    rw [h] at this
    rw [← this]
    simp [Ordering.swap]

instance : IsTrans Value vble := by
  constructor
  intro a b c h1 h2
  unfold vble at *
  rcases hab : vcmp a b with _ | _ | _
  · rcases hbc : vcmp b c with _ | _ | _
    · simp [vcmp_lt_trans hab hbc]
    · have e := (vcmp_eq_iff b c).mp hbc; subst e; simp [hab]
    · exact absurd hbc h2
  · have e := (vcmp_eq_iff a b).mp hab; subst e; exact h2
  · exact absurd hab h1

instance : IsAntisymm Value vble := by
  constructor
  intro a b h1 h2
  unfold vble at *
  have hs := vcmp_swap a b
  rcases hab : vcmp a b with _ | _ | _
  · rw [hab] at hs
    exact absurd hs.symm h2
  · exact (vcmp_eq_iff a b).mp hab
  · exact absurd hab h1

instance : IsRefl Value vble := by
  constructor
  intro a
  unfold vble
  simp [vcmp_self]

mutual
/-- Python 3 `<` on values: `some b` when the comparison is defined with
result `b`, `none` when it raises `TypeError`.  `int`/`int` and `str`/`str`
compare naturally; digests are hex strings, so digests and strings are
mutually comparable; tuples and lists compare lexicographically, testing `==`
before `<` exactly as CPython does; everything else (including `None` and
related managers) is incomparable. -/
def pyLt : Value → Value → Option Bool
  | .int a, .int b => some (decide (cmp a b = .lt))
  | .str a, .str b => some (decide (scmp a b = .lt))
  | .str _, .digest _ => some true
  | .digest _, .str _ => some false
  | .digest a, .digest b => some (decide (vcmp a b = .lt))
  | .vtuple a, .vtuple b => pyLtL a b
  | .vlist a, .vlist b => pyLtL a b
  | _, _ => none

/-- Python's lexicographic `<` on element lists: equal heads are skipped via
`==` (total), the first differing pair decides via `<`, a strict prefix is
smaller. -/
def pyLtL : List Value → List Value → Option Bool
  | [], [] => some false
  | [], _ :: _ => some true
  | _ :: _, [] => some false
  | a :: as, b :: bs =>
    if a = b then pyLtL as bs else pyLt a b
end

/-- Whether Python can compare two values without raising. -/
def pyComparable (a b : Value) : Bool := (pyLt a b).isSome

/-- Every unordered pair of the list is comparable: the condition under which
the model's `sorted` succeeds. -/
def allPairsComparable : List Value → Bool
  | [] => true
  | x :: xs => xs.all (fun y => pyComparable x y) && allPairsComparable xs

/-- Python's `sorted`, over the model's total order `vble`: fails when some
pair of elements is incomparable, else the sorted list. -/
def sortPy (xs : List Value) : Option (List Value) :=
  if allPairsComparable xs then some (List.insertionSort vble xs) else none

/-- Deduplication keeping first occurrences in order: the effect of Python
set construction on the inserted elements. -/
def pyDedup : List Value → List Value
  | [] => []
  | x :: xs => x :: (pyDedup xs).filter (fun y => decide (y ≠ x))

mutual
/-- `roesti.models.freeze`: canonicalize a value for hashing.
Dict-like values become the sorted tuple of `(key, freeze(value))` pairs
(keys are not recursively frozen, exactly as in the source); lists become the
tuple of frozen elements in order; sets become the sorted tuple of their raw
(deduplicated) elements; everything else passes through unchanged.  `none`
models a `TypeError` escaping `sorted`. -/
def freeze : Value → Option Value
  | .vdict kvs => do
    let frozen ← freezeKV kvs
    let sorted ← sortPy (frozen.map (fun kv => Value.vtuple [kv.1, kv.2]))
    pure (Value.vtuple sorted)
  | .vlist vs => do
    let fs ← freezeL vs
    pure (Value.vtuple fs)
  | .vset xs => do
    let sorted ← sortPy (pyDedup xs)
    pure (Value.vtuple sorted)
  | .int a => some (.int a)
  | .str s => some (.str s)
  | .pynone => some .pynone
  | .digest c => some (.digest c)
  | .manager m f => some (.manager m f)
  | .vtuple ts => some (.vtuple ts)

/-- `freeze` mapped over a list (the generator in the `list` branch). -/
def freezeL : List Value → Option (List Value)
  | [] => some []
  | v :: vs => do
    let f ← freeze v
    let fs ← freezeL vs
    pure (f :: fs)

/-- `(key, freeze(value))` for each dict item, in iteration order. -/
def freezeKV : List (Value × Value) → Option (List (Value × Value))
  | [] => some []
  | (k, v) :: kvs => do
    let f ← freeze v
    let fs ← freezeKV kvs
    pure ((k, f) :: fs)
end

mutual
/-- Whether `pickle.dumps` succeeds on a (frozen) value: related managers are
not picklable; every ordinary value is. -/
def pickleOk : Value → Bool
  | .manager _ _ => false
  | .vtuple xs => pickleOkL xs
  | .vlist xs => pickleOkL xs
  | .vset xs => pickleOkL xs
  | .vdict kvs => pickleOkKV kvs
  | _ => true

def pickleOkL : List Value → Bool
  | [] => true
  | x :: xs => pickleOk x && pickleOkL xs

def pickleOkKV : List (Value × Value) → Bool
  | [] => true
  | (k, v) :: kvs => pickleOk k && pickleOk v && pickleOkKV kvs
end

/-- `roesti.models.make_hash`: `md5(pickle.dumps(freeze(obj))).hexdigest()`.
The digest is modelled as the injective constructor `Value.digest` applied to
the frozen value; pickling fails on related managers. -/
def make_hash (v : Value) : Option Value := do
  let c ← freeze v
  if pickleOk c then pure (Value.digest c) else none


theorem pyComparable_symm : ∀ a b, pyComparable a b = pyComparable b a := by
  have key : ∀ a b, (pyLt a b).isSome = (pyLt b a).isSome := by
    refine pyLt.induct
      (fun a b => (pyLt a b).isSome = (pyLt b a).isSome)
      (fun as bs => (pyLtL as bs).isSome = (pyLtL bs as).isSome)
      ?_ ?_ ?_ ?_ ?_ ?_ ?_ ?_ ?_ ?_ ?_ ?_ ?_
    · intro a b; simp [pyLt]
    · intro a b; simp [pyLt]
    · intro a b; simp [pyLt]
    · intro a b; simp [pyLt]
    · intro a b; simp [pyLt]
    · intro a b ih; simp only [pyLt]; exact ih
    · intro a b ih; simp only [pyLt]; exact ih
    · intro a b n1 n2 n3 n4 n5 n6 n7
      have hab : pyLt a b = none := by
        rw [pyLt.eq_def]
        split
        · exact (n1 _ _ rfl rfl).elim
        · exact (n2 _ _ rfl rfl).elim
        · exact (n3 _ _ rfl rfl).elim
        · exact (n4 _ _ rfl rfl).elim
        · exact (n5 _ _ rfl rfl).elim
        · exact (n6 _ _ rfl rfl).elim
        · exact (n7 _ _ rfl rfl).elim
        · rfl
      have hba : pyLt b a = none := by
        rw [pyLt.eq_def]
        split
        · exact (n1 _ _ rfl rfl).elim
        · exact (n2 _ _ rfl rfl).elim
        · exact (n4 _ _ rfl rfl).elim
        · exact (n3 _ _ rfl rfl).elim
        · exact (n5 _ _ rfl rfl).elim
        · exact (n6 _ _ rfl rfl).elim
        · exact (n7 _ _ rfl rfl).elim
        · rfl
      rw [hab, hba]
    · rfl
    · intro h t; simp [pyLtL]
    · intro h t; simp [pyLtL]
    · intro as b bs ih
      simp only [pyLtL, if_pos rfl]
      exact ih
    · intro a as b bs h ih
      simp only [pyLtL, if_neg h, if_neg (Ne.symm h)]
      exact ih
  intro a b
  unfold pyComparable
  rw [key a b]

theorem allPairsComparable_iff_pairwise {xs : List Value} :
    allPairsComparable xs = true ↔ xs.Pairwise (fun a b => pyComparable a b = true) := by
  induction xs with
  | nil => simp [allPairsComparable]
  | cons x xs ih =>
    simp [allPairsComparable, List.pairwise_cons, ih, and_comm]

theorem allPairsComparable_perm {xs ys : List Value} (h : List.Perm xs ys) :
    allPairsComparable xs = allPairsComparable ys := by
  rcases hx : allPairsComparable xs <;> rcases hy : allPairsComparable ys
  · rfl
  · exfalso
    rw [allPairsComparable_iff_pairwise] at hy
    have := (h.pairwise_iff (S := fun {a b} (e : pyComparable a b = true) =>
      (pyComparable_symm a b) ▸ e)).mpr hy
    rw [← allPairsComparable_iff_pairwise] at this
    rw [hx] at this
    cases this
  · exfalso
    rw [allPairsComparable_iff_pairwise] at hx
    have := (h.pairwise_iff (S := fun {a b} (e : pyComparable a b = true) =>
      (pyComparable_symm a b) ▸ e)).mp hx
    rw [← allPairsComparable_iff_pairwise] at this
    rw [hy] at this
    cases this
  · rfl

theorem sortPy_perm {xs l : List Value} (h : sortPy xs = some l) : List.Perm l xs := by
  unfold sortPy at h
  split at h
  · cases h
    exact List.perm_insertionSort vble xs
  · cases h

theorem sortPy_sorted {xs l : List Value} (h : sortPy xs = some l) : l.Sorted vble := by
  unfold sortPy at h
  split at h
  · cases h
    exact List.sorted_insertionSort vble xs
  · cases h

theorem sortPy_eq_of_perm {xs ys : List Value} (h : List.Perm xs ys) :
    sortPy xs = sortPy ys := by
  unfold sortPy
  rw [allPairsComparable_perm h]
  split
  · congr 1
    refine List.eq_of_perm_of_sorted ?_ (List.sorted_insertionSort vble xs)
      (List.sorted_insertionSort vble ys)
    exact ((List.perm_insertionSort vble xs).trans h).trans
      (List.perm_insertionSort vble ys).symm
  · rfl

theorem mem_pyDedup : ∀ {xs : List Value} {a : Value}, a ∈ pyDedup xs ↔ a ∈ xs := by
  intro xs
  induction xs with
  | nil => simp [pyDedup]
  | cons x xs ih =>
    intro a
    rw [pyDedup]
    by_cases hax : a = x
    · subst hax
      simp
    · simp only [List.mem_cons, List.mem_filter, ih, decide_eq_true_eq]
      constructor
      · rintro (rfl | ⟨h, _⟩)
        · exact Or.inl rfl
        · exact Or.inr h
      · rintro (rfl | h)
        · exact Or.inl rfl
        · exact Or.inr ⟨h, hax⟩

theorem nodup_pyDedup : ∀ xs : List Value, (pyDedup xs).Nodup := by
  intro xs
  induction xs with
  | nil => simp [pyDedup]
  | cons x xs ih =>
    rw [pyDedup]
    refine List.nodup_cons.mpr ⟨?_, List.Nodup.filter _ ih⟩
    intro hmem
    rw [List.mem_filter] at hmem
    simp at hmem

theorem pyDedup_perm_of_mem_iff {xs ys : List Value}
    (h : ∀ a, a ∈ xs ↔ a ∈ ys) : List.Perm (pyDedup xs) (pyDedup ys) := by
  refine (List.perm_ext_iff_of_nodup (nodup_pyDedup xs) (nodup_pyDedup ys)).mpr ?_
  intro a
  rw [mem_pyDedup, mem_pyDedup]
  exact h a

/-- Canonicalizing a set ignores insertion order and multiplicity: any two
element lists with the same members freeze identically. -/
theorem freeze_vset_congr {xs ys : List Value} (h : ∀ a, a ∈ xs ↔ a ∈ ys) :
    freeze (.vset xs) = freeze (.vset ys) := by
  have hperm := pyDedup_perm_of_mem_iff h
  simp only [freeze]
  rw [sortPy_eq_of_perm hperm]

theorem freezeKV_perm : ∀ {kvs kvs' : List (Value × Value)},
    List.Perm kvs kvs' → ∀ {fs}, freezeKV kvs = some fs →
    ∃ fs', freezeKV kvs' = some fs' ∧ List.Perm fs fs' := by
  intro kvs kvs' hperm
  induction hperm with
  | nil =>
    intro fs h
    exact ⟨fs, h, List.Perm.refl _⟩
  | cons x p ih =>
    intro fs h
    match x with
    | (k, v) =>
      simp only [freezeKV, Option.pure_def, Option.bind_eq_bind, Option.bind_eq_some, Option.some.injEq] at h
      obtain ⟨f, hf, fs0, hfs0, hfseq⟩ := h
      obtain ⟨fs0', hfs0', hp⟩ := ih hfs0
      subst hfseq
      refine ⟨(k, f) :: fs0', ?_, hp.cons _⟩
      simp only [freezeKV, Option.pure_def, Option.bind_eq_bind, Option.bind_eq_some,
        Option.some.injEq]
      exact ⟨f, hf, fs0', hfs0', rfl⟩
  | swap x y l =>
    intro fs h
    match x, y with
    | (kx, vx), (ky, vy) =>
      simp only [freezeKV, Option.pure_def, Option.bind_eq_bind, Option.bind_eq_some, Option.some.injEq] at h
      obtain ⟨fy, hfy, rest, hrest, hfseq⟩ := h
      obtain ⟨fx, hfx, fs0, hfs0, hresteq⟩ := hrest
      subst hresteq
      subst hfseq
      refine ⟨(kx, fx) :: (ky, fy) :: fs0, ?_, List.Perm.swap _ _ _⟩
      simp only [freezeKV, Option.pure_def, Option.bind_eq_bind, Option.bind_eq_some,
        Option.some.injEq]
      exact ⟨fx, hfx, (ky, fy) :: fs0, ⟨fy, hfy, fs0, hfs0, rfl⟩, rfl⟩
  | trans p1 p2 ih1 ih2 =>
    intro fs h
    obtain ⟨fs1, h1, hp1⟩ := ih1 h
    obtain ⟨fs2, h2, hp2⟩ := ih2 h1
    exact ⟨fs2, h2, hp1.trans hp2⟩

/-- Canonicalizing a mapping ignores entry insertion order: permuted item
lists freeze identically. -/
theorem freeze_vdict_congr {kvs kvs' : List (Value × Value)}
    (h : List.Perm kvs kvs') : freeze (.vdict kvs) = freeze (.vdict kvs') := by
  simp only [freeze]
  rcases hk : freezeKV kvs with _ | fs
  · rcases hk' : freezeKV kvs' with _ | fs'
    · rfl
    · obtain ⟨fs2, h2, _⟩ := freezeKV_perm h.symm hk'
      rw [hk] at h2
      cases h2
  · obtain ⟨fs', h', hp⟩ := freezeKV_perm h hk
    rw [h']
    simp only [Option.bind_eq_bind, Option.some_bind]
    rw [sortPy_eq_of_perm (hp.map _)]

theorem sortPy_isSome {xs : List Value} :
    (sortPy xs).isSome = allPairsComparable xs := by
  unfold sortPy
  split <;> simp_all

/-- Whenever Python can compare two values, the model's total order `vcmp`
agrees with Python's `<`: the sort order used by the model is Python's order
on every comparison `sorted` actually performs. -/
theorem pyLt_agrees_vcmp : ∀ a b, (pyLt a b).isSome →
    pyLt a b = some (decide (vcmp a b = .lt)) := by
  refine pyLt.induct
    (fun a b => (pyLt a b).isSome → pyLt a b = some (decide (vcmp a b = .lt)))
    (fun as bs => (pyLtL as bs).isSome → pyLtL as bs = some (decide (vcmpL as bs = .lt)))
    ?_ ?_ ?_ ?_ ?_ ?_ ?_ ?_ ?_ ?_ ?_ ?_ ?_
  · intro a b _; simp [pyLt, vcmp]
  · intro a b _; simp [pyLt, vcmp]
  · intro a c _
    have h := vcmp_tag_ne (a := .str a) (b := .digest c) (by simp [Value.tag])
    simp only [pyLt, h, Value.tag]
    decide
  · intro c a _
    have h := vcmp_tag_ne (a := .digest c) (b := .str a) (by simp [Value.tag])
    simp only [pyLt, h, Value.tag]
    decide
  · intro a b _; simp [pyLt, vcmp]
  · intro a b ih hs
    simp only [pyLt] at hs ⊢
    simp only [vcmp]
    exact ih hs
  · intro a b ih hs
    simp only [pyLt] at hs ⊢
    simp only [vcmp]
    exact ih hs
  · intro a b n1 n2 n3 n4 n5 n6 n7 hs
    have hab : pyLt a b = none := by
      rw [pyLt.eq_def]
      split
      · exact (n1 _ _ rfl rfl).elim
      · exact (n2 _ _ rfl rfl).elim
      · exact (n3 _ _ rfl rfl).elim
      · exact (n4 _ _ rfl rfl).elim
      · exact (n5 _ _ rfl rfl).elim
      · exact (n6 _ _ rfl rfl).elim
      · exact (n7 _ _ rfl rfl).elim
      · rfl
    rw [hab] at hs
    cases hs
  · intro _; simp [pyLtL, vcmpL]
  · intro h t _; simp [pyLtL, vcmpL]
  · intro h t _; simp [pyLtL, vcmpL]
  · intro as b bs ih hs
    simp only [pyLtL, if_pos rfl] at hs ⊢
    simp only [vcmpL, vcmp_self]
    exact ih hs
  · intro a as b bs h ih hs
    simp only [pyLtL, if_neg h] at hs ⊢
    rw [ih hs]
    simp only [vcmpL]
    congr 1
    rw [decide_eq_decide]
    rcases h2 : vcmp a b with _ | _ | _
    · simp
    · exact absurd ((vcmp_eq_iff a b).mp h2) h
    · simp

mutual
/-- Whether a value is hashable in Python (usable as a set element or dict
key): lists, dicts and sets are not; tuples are hashable when their elements
are; scalars are. -/
def hashableV : Value → Bool
  | .vlist _ => false
  | .vdict _ => false
  | .vset _ => false
  | .vtuple xs => hashableL xs
  | _ => true

def hashableL : List Value → Bool
  | [] => true
  | x :: xs => hashableV x && hashableL xs
end

mutual
/-- Python-representable values on which `freeze` cannot raise: every set has
hashable, mutually comparable elements, and every mapping has hashable,
pairwise-distinct, mutually comparable keys (a Python `dict` always has
distinct keys).  This is the domain on which the specification's totality
claim survives; the mixed-type set `{1, "a"}` lies outside it. -/
def wfV : Value → Bool
  | .vdict kvs => wfKV kvs && hashableL (kvs.map Prod.fst) &&
      decide ((kvs.map Prod.fst).Nodup) && allPairsComparable (kvs.map Prod.fst)
  | .vlist xs => wfL xs
  | .vset xs => hashableL xs && allPairsComparable (pyDedup xs)
  | _ => true

def wfL : List Value → Bool
  | [] => true
  | x :: xs => wfV x && wfL xs

def wfKV : List (Value × Value) → Bool
  | [] => true
  | kv :: kvs => wfV kv.2 && wfKV kvs
end

theorem freezeKV_keys : ∀ {kvs fs : List (Value × Value)},
    freezeKV kvs = some fs → fs.map Prod.fst = kvs.map Prod.fst := by
  intro kvs
  induction kvs with
  | nil => intro fs h; cases h; rfl
  | cons kv kvs ih =>
    intro fs h
    match kv with
    | (k, v) =>
      simp only [freezeKV, Option.pure_def, Option.bind_eq_bind, Option.bind_eq_some,
        Option.some.injEq] at h
      obtain ⟨f, _, fs0, hfs0, rfl⟩ := h
      simp [ih hfs0]

theorem entry_comparable {k fv k' fv' : Value} (hne : k ≠ k')
    (hc : pyComparable k k' = true) :
    pyComparable (.vtuple [k, fv]) (.vtuple [k', fv']) = true := by
  unfold pyComparable at *
  simp only [pyLt, pyLtL, if_neg hne]
  exact hc

/-- On Python-representable values (`wfV`), `freeze` always succeeds. -/
theorem freeze_total : ∀ v, wfV v = true → (freeze v).isSome = true := by
  refine freeze.induct
    (fun v => wfV v = true → (freeze v).isSome = true)
    (fun vs => wfL vs = true → (freezeL vs).isSome = true)
    (fun kvs => wfKV kvs = true → (freezeKV kvs).isSome = true)
    ?_ ?_ ?_ ?_ ?_ ?_ ?_ ?_ ?_ ?_ ?_ ?_ ?_
  · intro kvs ih hw
    simp only [wfV, Bool.and_eq_true, decide_eq_true_eq] at hw
    obtain ⟨⟨⟨hkv, _⟩, hnd⟩, hcmp⟩ := hw
    obtain ⟨fs, hfs⟩ := Option.isSome_iff_exists.mp (ih hkv)
    have hkeys : fs.map Prod.fst = kvs.map Prod.fst := freezeKV_keys hfs
    have hpair : (kvs.map Prod.fst).Pairwise
        (fun k k' => k ≠ k' ∧ pyComparable k k' = true) := by
      have h1 : (kvs.map Prod.fst).Pairwise (· ≠ ·) := hnd
      have h2 : (kvs.map Prod.fst).Pairwise (fun k k' => pyComparable k k' = true) :=
        allPairsComparable_iff_pairwise.mp hcmp
      exact h1.and h2
    have hfspair : (fs.map Prod.fst).Pairwise
        (fun k k' => k ≠ k' ∧ pyComparable k k' = true) := by
      rw [hkeys]; exact hpair
    have hentries : allPairsComparable
        (fs.map (fun kv => Value.vtuple [kv.1, kv.2])) = true := by
      rw [allPairsComparable_iff_pairwise, List.pairwise_map]
      rw [List.pairwise_map] at hfspair
      exact hfspair.imp (fun h => entry_comparable h.1 h.2)
    have hsort : (sortPy (fs.map (fun kv => Value.vtuple [kv.1, kv.2]))).isSome = true := by
      rw [sortPy_isSome]; exact hentries
    obtain ⟨l, hs⟩ := Option.isSome_iff_exists.mp hsort
    simp only [freeze, hfs, Option.bind_eq_bind, Option.some_bind, hs]
    rfl
  · intro vs ih hw
    simp only [wfV] at hw
    obtain ⟨fs, hfs⟩ := Option.isSome_iff_exists.mp (ih hw)
    simp only [freeze, hfs, Option.bind_eq_bind, Option.some_bind]
    rfl
  · intro xs hw
    simp only [wfV, Bool.and_eq_true] at hw
    have hsort : (sortPy (pyDedup xs)).isSome = true := by
      rw [sortPy_isSome]; exact hw.2
    obtain ⟨l, hs⟩ := Option.isSome_iff_exists.mp hsort
    simp only [freeze, hs, Option.bind_eq_bind, Option.some_bind]
    rfl
  · intro a _; simp [freeze]
  · intro s _; simp [freeze]
  · intro _; simp [freeze]
  · intro c _; simp [freeze]
  · intro m f _; simp [freeze]
  · intro ts _; simp [freeze]
  · intro _; simp [freezeL]
  · intro x xs ih1 ih2 hw
    simp only [wfL, Bool.and_eq_true] at hw
    obtain ⟨f, h1⟩ := Option.isSome_iff_exists.mp (ih1 hw.1)
    obtain ⟨fs, h2⟩ := Option.isSome_iff_exists.mp (ih2 hw.2)
    simp only [freezeL, h1, h2, Option.bind_eq_bind, Option.some_bind]
    rfl
  · intro _; simp [freezeKV]
  · intro k v kvs ih1 ih2 hw
    simp only [wfKV, Bool.and_eq_true] at hw
    obtain ⟨f, h1⟩ := Option.isSome_iff_exists.mp (ih1 hw.1)
    obtain ⟨fs, h2⟩ := Option.isSome_iff_exists.mp (ih2 hw.2)
    simp only [freezeKV, h1, h2, Option.bind_eq_bind, Option.some_bind]
    rfl

theorem freezeL_forall2 : ∀ {vs fs : List Value}, freezeL vs = some fs →
    List.Forall₂ (fun v f => freeze v = some f) vs fs := by
  intro vs
  induction vs with
  | nil => intro fs h; cases h; exact List.Forall₂.nil
  | cons v vs ih =>
    intro fs h
    simp only [freezeL, Option.pure_def, Option.bind_eq_bind, Option.bind_eq_some,
      Option.some.injEq] at h
    obtain ⟨f, hf, fs0, hfs0, rfl⟩ := h
    exact List.Forall₂.cons hf (ih hfs0)

theorem freezeKV_forall2 : ∀ {kvs fs : List (Value × Value)}, freezeKV kvs = some fs →
    List.Forall₂ (fun kv fkv => kv.1 = fkv.1 ∧ freeze kv.2 = some fkv.2) kvs fs := by
  intro kvs
  induction kvs with
  | nil => intro fs h; cases h; exact List.Forall₂.nil
  | cons kv kvs ih =>
    intro fs h
    match kv with
    | (k, v) =>
      simp only [freezeKV, Option.pure_def, Option.bind_eq_bind, Option.bind_eq_some,
        Option.some.injEq] at h
      obtain ⟨f, hf, fs0, hfs0, rfl⟩ := h
      exact List.Forall₂.cons ⟨rfl, hf⟩ (ih hfs0)

/-- C3 (counterexample): the claim that `canonicalize` is total on every value
built from scalars, mappings, sequences and sets is false on the code:
`freeze({1, "a"})` calls `sorted` on a mixed-type set, which raises
`TypeError` in Python 3, modelled by `none`. -/
theorem freeze_not_total_on_mixed_set :
    freeze (.vset [.int 1, .str "a"]) = none := by decide

/-- C3 (amended): `canonicalize` is total and deterministic on every
Python-representable value (`wfV`: each set has hashable mutually comparable
elements and each mapping hashable, distinct, mutually comparable keys — the
mixed-type set above violates this), and it has exactly the recursive
structure the specification describes: scalars pass through unchanged;
sequences map `freeze` over their elements preserving order; mappings become
the tuple of `(key, canonical value)` entry pairs re-ordered ascending by the
sort order (ascending by key, since distinct keys decide each comparison);
sets become the sorted tuple of their distinct elements, discarding insertion
order (set elements are hashable, hence already canonical). -/
theorem canonicalize_structure :
    (∀ v, wfV v = true → (freeze v).isSome = true) ∧
    (∀ i : Int, freeze (.int i) = some (.int i)) ∧
    (∀ s : String, freeze (.str s) = some (.str s)) ∧
    freeze .pynone = some .pynone ∧
    (∀ vs fs, freezeL vs = some fs →
      freeze (.vlist vs) = some (.vtuple fs) ∧
      List.Forall₂ (fun v f => freeze v = some f) vs fs) ∧
    (∀ kvs fs l, freezeKV kvs = some fs →
      sortPy (fs.map fun kv => Value.vtuple [kv.1, kv.2]) = some l →
      freeze (.vdict kvs) = some (.vtuple l) ∧
      List.Perm l (fs.map fun kv => Value.vtuple [kv.1, kv.2]) ∧
      l.Sorted vble ∧
      List.Forall₂ (fun kv fkv => kv.1 = fkv.1 ∧ freeze kv.2 = some fkv.2) kvs fs) ∧
    (∀ xs l, sortPy (pyDedup xs) = some l →
      freeze (.vset xs) = some (.vtuple l) ∧
      l.Sorted vble ∧ l.Nodup ∧ (∀ a, a ∈ l ↔ a ∈ xs)) := by
  refine ⟨freeze_total, fun i => rfl, fun s => rfl, rfl, ?_, ?_, ?_⟩
  · intro vs fs h
    refine ⟨?_, freezeL_forall2 h⟩
    simp only [freeze, h, Option.bind_eq_bind, Option.some_bind]
    rfl
  · intro kvs fs l hkv hs
    refine ⟨?_, sortPy_perm hs, sortPy_sorted hs, freezeKV_forall2 hkv⟩
    simp only [freeze, hkv, Option.bind_eq_bind, Option.some_bind, hs]
    rfl
  · intro xs l hs
    refine ⟨?_, sortPy_sorted hs, ?_, ?_⟩
    · simp only [freeze, hs, Option.bind_eq_bind, Option.some_bind]
      rfl
    · exact ((sortPy_perm hs).nodup_iff).mpr (nodup_pyDedup xs)
    · intro a
      rw [(sortPy_perm hs).mem_iff, mem_pyDedup]

/-- C3 (witness): the amended theorem applied at concrete inputs — a
well-formed mapping with unsorted keys is total, and the set `{2, 1, 2}`
canonicalizes to the sorted deduplicated tuple `(1, 2)`. -/
theorem canonicalize_structure_witness :
    (wfV (.vdict [(.str "b", .int 2), (.str "a", .int 1)]) = true ∧
      (freeze (.vdict [(.str "b", .int 2), (.str "a", .int 1)])).isSome = true) ∧
    freeze (.vset [.int 2, .int 1, .int 2]) = some (.vtuple [.int 1, .int 2]) := by
  constructor
  · refine ⟨by decide, ?_⟩
    exact canonicalize_structure.1 _ (by decide)
  · exact (canonicalize_structure.2.2.2.2.2.2 [.int 2, .int 1, .int 2]
      [.int 1, .int 2] (by decide)).1

/-- C8: two inputs with equal canonical forms hash identically — the digest
is a function of the canonical form only (`md5 ∘ pickle.dumps` applied to the
frozen value), which is the dedup correctness condition; moreover mapping
insertion order and set element order never affect the hash.  Run-to-run
stability holds because the model is a pure function of its input (the real
digest is md5 over a deterministic serialization, with no per-run state). -/
theorem hash_deterministic :
    (∀ a b : Value, freeze a = freeze b → make_hash a = make_hash b) ∧
    (∀ kvs kvs' : List (Value × Value), List.Perm kvs kvs' →
      make_hash (.vdict kvs) = make_hash (.vdict kvs')) ∧
    (∀ xs ys : List Value, (∀ a, a ∈ xs ↔ a ∈ ys) →
      make_hash (.vset xs) = make_hash (.vset ys)) := by
  refine ⟨?_, ?_, ?_⟩
  · intro a b h
    unfold make_hash
    rw [h]
  · intro kvs kvs' h
    unfold make_hash
    rw [freeze_vdict_congr h]
  · intro xs ys h
    unfold make_hash
    rw [freeze_vset_congr h]

/-- C8 (witness): the theorem applied to a mapping with two insertion orders
and a set with two element orders. -/
theorem hash_deterministic_witness :
    make_hash (.vdict [(.str "a", .int 1), (.str "b", .int 2)]) =
      make_hash (.vdict [(.str "b", .int 2), (.str "a", .int 1)]) ∧
    make_hash (.vset [.str "x", .str "y"]) = make_hash (.vset [.str "y", .str "x"]) := by
  constructor
  · exact hash_deterministic.1 _ _ (by decide)
  · exact hash_deterministic.2.2 _ _ (fun a => by simp [or_comm])

/-- Classification of a field name on a hashed model, as Django's
`_meta.get_field` reveals it (§ Record Schema Registry).  A `ForeignKey` is
reachable both under its name and its `<name>_id` attname, so both map to
`fk target objName` where `objName` is the field's name; a `ManyToOneRel`
reverse accessor maps to `reverse child attname` where `attname` is the
back-pointing foreign key's attname on the child model. -/
inductive FieldKind where
  | plain
  | fk (target : String) (objName : String)
  | reverse (child : String) (attname : String)
  deriving DecidableEq

/-- Per-model static schema: the declared `hash_fields` and the field
classification. -/
structure ModelSchema where
  hash_fields : List String
  kindOf : String → FieldKind

/-- The model registry: every hashed model name maps to its schema. -/
def Registry := String → ModelSchema

/-- An in-memory Django model instance: its model name, its plain attribute
values (latest write first), its cached forward-reference objects (set by the
FK descriptor), and its `content_hash` primary key (`none` models the unset,
falsy default). -/
inductive Inst where
  | mk (typ : String) (vals : List (String × Value)) (objs : List (String × Inst))
      (chash : Option Value)

def Inst.typ : Inst → String
  | .mk t _ _ _ => t

def Inst.vals : Inst → List (String × Value)
  | .mk _ v _ _ => v

def Inst.objs : Inst → List (String × Inst)
  | .mk _ _ o _ => o

def Inst.chash : Inst → Option Value
  | .mk _ _ _ h => h

/-- `instance.pk`: the `content_hash` primary key. -/
def Inst.pk (i : Inst) : Option Value := i.chash

/-- `setattr(instance, f, v)` for a plain attribute: later writes shadow
earlier ones. -/
def Inst.setVal (i : Inst) (f : String) (v : Value) : Inst :=
  .mk i.typ ((f, v) :: i.vals) i.objs i.chash

/-- Caching a forward-reference object on the instance (the FK descriptor's
object store). -/
def Inst.setObj (i : Inst) (f : String) (child : Inst) : Inst :=
  .mk i.typ i.vals ((f, child) :: i.objs) i.chash

def Inst.getVal (i : Inst) (f : String) : Option Value :=
  (i.vals.find? (fun kv => kv.1 = f)).map Prod.snd

def Inst.getObj (i : Inst) (f : String) : Option Inst :=
  (i.objs.find? (fun kv => kv.1 = f)).map Prod.snd

def Inst.withHash (i : Inst) (h : Value) : Inst :=
  .mk i.typ i.vals i.objs (some h)

/-- The reverse-relation index accumulated during resolution:
`(child model, back-pointer attname) → accumulated child instances`.
Python uses `defaultdict(set)` of freshly created instance objects, so
object-identity never collapses entries; the model keeps them in a list in
accumulation order. -/
def RR := List ((String × String) × List Inst)

def rrLookup (rr : RR) (key : String × String) : Option (List Inst) :=
  (rr.find? (fun e => e.1 = key)).map Prod.snd

/-- `reverse_relations[key].add(instance)`. -/
def rrAdd (rr : RR) (key : String × String) (i : Inst) : RR :=
  match rr with
  | [] => [(key, [i])]
  | e :: rest => if e.1 = key then (e.1, e.2 ++ [i]) :: rest else e :: rrAdd rest key i

/-- `target[key].update(instances)`. -/
def rrUpdate (rr : RR) (key : String × String) (is_ : List Inst) : RR :=
  match rr with
  | [] => [(key, is_)]
  | e :: rest => if e.1 = key then (e.1, e.2 ++ is_) :: rest else e :: rrUpdate rest key is_

/-- `HashedModel._accumulate_dict`: merge a returned reverse-relation index
into the accumulator, entry by entry in iteration order. -/
def rrMerge (target source : RR) : RR :=
  source.foldl (fun t e => rrUpdate t e.1 e.2) target

/-- Errors a resolution or ensure call can surface.  `invalidInput` is the
`ValueError('Item must be a Mapping or HashedModel')`; `attrError` covers the
`AttributeError`/descriptor `ValueError`s raised on schema-value mismatches;
`hashError` is a `TypeError` escaping `make_hash`; `doesNotExist` is a failed
FK descriptor fetch; `outOfFuel` is the model's artifact bounding cross-model
recursion (the source can recurse unboundedly on cyclic schemas). -/
inductive Err where
  | invalidInput
  | attrError
  | hashError
  | doesNotExist
  | outOfFuel
  deriving DecidableEq

/-- Raw input value inside an item mapping: a plain value, a nested mapping
(forward reference by value), or a non-string iterable (reverse relation or
plain collection). -/
inductive InVal where
  | val (v : Value)
  | map (d : List (String × InVal))
  | seq (items : List InVal)

mutual
/-- The Python value denoted by a raw input when it is stored as-is. -/
def InVal.toValue : InVal → Value
  | .val v => v
  | .map d => .vdict (InVal.toValueKV d)
  | .seq items => .vlist (InVal.toValueL items)

def InVal.toValueL : List InVal → List Value
  | [] => []
  | x :: xs => x.toValue :: InVal.toValueL xs

def InVal.toValueKV : List (String × InVal) → List (Value × Value)
  | [] => []
  | (k, x) :: xs => (.str k, x.toValue) :: InVal.toValueKV xs
end

/-- Deduplicate Python's `{f: value for f in hash_fields}` field-name list
(a dict comprehension keeps one entry per key). -/
def dedupStr : List String → List String
  | [] => []
  | x :: xs => x :: (dedupStr xs).filter (fun y => decide (y ≠ x))

/-- `HashedModel._get_hash_field`: the value a hash field contributes.  A
reverse-relation accessor yields a related manager; when the accumulated
index holds a matching entry the value becomes the *set* of child primary
keys, otherwise the manager object itself remains (and later fails to
pickle).  Any other field contributes its attribute value (`None` when the
attribute was never assigned, Django's default for the fields used here). -/
def get_hash_field (U : Registry) (typ : String) (i : Inst) (f : String) (rr : RR) : Value :=
  match (U typ).kindOf f with
  | .reverse child attname =>
    match rrLookup rr (child, attname) with
    | some insts => .vset (insts.map (fun c => c.chash.getD .pynone))
    | none => .manager child attname
  | _ => (i.getVal f).getD .pynone

/-- `HashedModel._get_hash_field_dict`: the dict hashed to produce the
content hash. -/
def get_hash_field_dict (U : Registry) (typ : String) (i : Inst) (rr : RR) : Value :=
  .vdict ((dedupStr (U typ).hash_fields).map (fun f => (.str f, get_hash_field U typ i f rr)))

/-- `HashedModel.get_content_hash`. -/
def get_content_hash (U : Registry) (typ : String) (i : Inst) (rr : RR) : Option Value :=
  make_hash (get_hash_field_dict U typ i rr)

/-- The back-patch loop at the end of `set_dict` (models.py lines 209-217):
for every accumulated reverse relation whose back-pointer field is a foreign
key to *this* model, write this record's now-known `content_hash` into each
child's back-pointer attribute; entries pointing at other models are left
untouched.  A non-FK back-pointer name would raise `AttributeError` on
`field.rel.to`. -/
def patchBackrefs (U : Registry) (typ : String) (h : Value) : RR → Except Err RR
  | [] => pure []
  | ((cm, att), insts) :: rest => do
    let rest' ← patchBackrefs U typ h rest
    match (U cm).kindOf att with
    | .fk target _ =>
      if target = typ then
        pure (((cm, att), insts.map (fun c => c.setVal att h)) :: rest')
      else
        pure (((cm, att), insts) :: rest')
    | _ => throw .attrError

mutual
/-- `HashedModelManager.from_dict`: construct a fresh instance and populate
it via `set_dict`.  The `fuel` argument bounds recursion depth through nested
mappings; it is a model artifact (any fuel at least the nesting depth of the
input gives the source's behavior) needed because Lean requires a decreasing
measure where Python recurses on the input tree. -/
def from_dict (U : Registry) : Nat → String → List (String × InVal) →
    Except Err (Inst × RR)
  | 0, _, _ => throw .outOfFuel
  | fuel + 1, typ, d => set_dict U fuel typ (.mk typ [] [] none) d

/-- `HashedModel.set_dict`: resolve the field loop, compute and assign this
record's `content_hash` from the accumulated reverse-relation index, then
back-patch matching accumulated children with the new hash and return the
(patched) index. -/
def set_dict (U : Registry) : Nat → String → Inst → List (String × InVal) →
    Except Err (Inst × RR)
  | 0, _, _, _ => throw .outOfFuel
  | fuel + 1, typ, i, d => do
    let p ← setFields U fuel typ i d
    match get_content_hash U typ p.1 p.2 with
    | none => throw .hashError
    | some h => do
      let rr ← patchBackrefs U typ h p.2
      pure (p.1.withHash h, rr)

/-- The field loop of `set_dict` (models.py lines 172-204), one dict item at
a time in iteration order:

* a mapping on a hashed foreign key resolves the child via `from_dict`,
  merges the child's reverse index, caches the child object and syncs the
  `_id` attname (the FK descriptor); a mapping on any other field raises
  (`field.rel` is `None` or absent);
* a non-string iterable on a `ManyToOneRel` resolves each element (which must
  itself be a mapping) and accumulates the children under
  `(child model, back-pointer attname)` without touching the instance;
  on a plain field the iterable is stored as-is (hashed like any value); on a
  FK it raises (descriptor rejects it);
* any other value is assigned, except `None` which is skipped. -/
def setFields (U : Registry) : Nat → String → Inst → List (String × InVal) →
    Except Err (Inst × RR)
  | 0, _, _, _ => throw .outOfFuel
  | _ + 1, _, i, [] => pure (i, [])
  | fuel + 1, typ, i, (f, value) :: rest => do
    let p ← applyField U fuel typ i f value
    let q ← setFields U fuel typ p.1 rest
    pure (q.1, rrMerge p.2 q.2)

/-- Process one `(field name, value)` item of the input dict. -/
def applyField (U : Registry) : Nat → String → Inst → String → InVal →
    Except Err (Inst × RR)
  | 0, _, _, _, _ => throw .outOfFuel
  | fuel + 1, typ, i, f, .map d =>
    (match (U typ).kindOf f with
    | .fk target objName =>
      if f = objName then do
        let p ← from_dict U fuel target d
        pure (((i.setObj f p.1).setVal (f ++ "_id") (p.1.chash.getD .pynone)), p.2)
      else
        throw .attrError
    | _ => throw .attrError)
  | fuel + 1, typ, i, f, .seq items =>
    (match (U typ).kindOf f with
    | .reverse child attname => do
      let rr ← resolveChildren U fuel child attname items
      pure (i, rr)
    | .fk _ _ => throw .attrError
    | .plain => pure (i.setVal f (InVal.toValue (.seq items)), []))
  | _ + 1, typ, i, f, .val v =>
    if v = .pynone then pure (i, [])
    else
      match (U typ).kindOf f with
      | .fk _ objName => if f = objName then throw .attrError else pure (i.setVal f v, [])
      | .reverse _ _ => throw .attrError
      | .plain => pure (i.setVal f v, [])

/-- The reverse-relation element loop (models.py lines 193-197): each element
must be a mapping; it is resolved into a child instance which is added under
`(child model, attname)`, and the child's own reverse index is merged in. -/
def resolveChildren (U : Registry) : Nat → String → String → List InVal →
    Except Err RR
  | 0, _, _, _ => throw .outOfFuel
  | _ + 1, _, _, [] => pure []
  | fuel + 1, child, attname, .map d :: rest => do
    let p ← from_dict U fuel child d
    let rr ← resolveChildren U fuel child attname rest
    pure (rrMerge (rrMerge (rrAdd [] (child, attname) p.1) p.2) rr)
  | _ + 1, _, _, _ :: _ => throw .attrError
end

/-- The backing store: rows of the hashed-model tables (table name paired
with the stored instance, in insertion order), the `HashedList` table (its
`list_hash` primary keys) and the list-membership table of a concrete
`HashedListItemModel` (`(list_hash, order, item pk)` rows). -/
structure DB where
  rows : List (String × Inst)
  lists : List Value
  listItems : List (Value × Nat × Value)

/-- Rows of one table. -/
def DB.table (db : DB) (m : String) : List Inst :=
  db.rows.filterMap (fun r => if r.1 = m then some r.2 else none)

/-- Keyed lookup: the first row of table `m` whose primary key is `pkv`. -/
def DB.find (db : DB) (m : String) (pkv : Value) : Option Inst :=
  (db.table m).find? (fun i => i.chash = some pkv)

/-- Each table stores at most one row per primary key (the store's
primary-key uniqueness constraint). -/
def DB.noDupPk (db : DB) : Bool :=
  (db.rows.map (fun r => (r.1, r.2.chash))).Nodup

/-- One raw element of an `ensure` batch: a mapping, an already-built model
instance, or anything else (which `ensure` rejects). -/
inductive Item where
  | map (d : List (String × InVal))
  | record (i : Inst)
  | other (v : Value)

/-- The normalization loop of `_ensure_impl` (models.py lines 58-71): each
mapping is resolved by `from_dict`, with its reverse index merged into the
accumulator; each already-built instance has its `content_hash` computed
*only when falsy*; anything else raises
`ValueError('Item must be a Mapping or HashedModel')`.  Returns the
normalized instances in batch order and the accumulated reverse index. -/
def normalizeItems (U : Registry) (fuel : Nat) (typ : String) :
    List Item → Except Err (List Inst × RR)
  | [] => pure ([], [])
  | .map d :: rest => do
    let p ← from_dict U fuel typ d
    let q ← normalizeItems U fuel typ rest
    pure (p.1 :: q.1, rrMerge p.2 q.2)
  | .record i :: rest => do
    let i ←
      match i.chash with
      | some _ => pure i
      | none =>
        match get_content_hash U i.typ i [] with
        | some h => pure (i.withHash h)
        | none => throw Err.hashError
    let q ← normalizeItems U fuel typ rest
    pure (i :: q.1, q.2)
  | .other _ :: _ => throw Err.invalidInput

/-- `{instance.pk: instance for instance in instances}.values()`: one
instance per primary key, keys in first-occurrence order, the last instance
with a given key winning. -/
def dedupInsert (acc : List Inst) (i : Inst) : List Inst :=
  if acc.any (fun j => j.chash = i.chash) then
    acc.map (fun j => if j.chash = i.chash then i else j)
  else acc ++ [i]

def dedupByPk (l : List Inst) : List Inst := l.foldl dedupInsert []

/-- The `table_references` aggregation of `_do_insert` (models.py lines
91-97): for each hash field that is a foreign key to a hashed model, group
the field *names* by target model, in first-occurrence order. -/
def tableRefs (U : Registry) (m : String) : List (String × List String) :=
  (U m).hash_fields.foldl
    (fun acc f =>
      match (U m).kindOf f with
      | .fk target objName =>
        if acc.any (fun e => e.1 = target) then
          acc.map (fun e => if e.1 = target then (e.1, e.2 ++ [objName]) else e)
        else acc ++ [(target, [objName])]
      | _ => acc)
    []

/-- `getattr(instance, field.name)` for a forward reference: the cached
object if `set_dict` stored one, else the forward FK descriptor's
fetch-by-id from the store.  The repository's foreign keys are all
non-nullable, so Django's descriptor raises `RelatedObjectDoesNotExist`
(a `DoesNotExist` subclass) when the id attribute is unset or `None`, and
the fetch raises `DoesNotExist` when the id is set but absent. -/
def getRelObj (db : DB) (target : String) (i : Inst) (objName : String) :
    Except Err Item :=
  match i.getObj objName with
  | some child => pure (.record child)
  | none =>
    match i.getVal (objName ++ "_id") with
    | none => throw Err.doesNotExist
    | some pkv =>
      if pkv = .pynone then throw Err.doesNotExist
      else
        match db.find target pkv with
        | some row => pure (.record row)
        | none => throw Err.doesNotExist

/-- The children generator of `_do_insert` (models.py lines 103-105): for
each foreign-key field name in order, for each batch instance in order. -/
def collectChildren (db : DB) (target : String) (instances : List Inst) :
    List String → Except Err (List Item)
  | [] => pure []
  | f :: fs => do
    let here ← instances.mapM (fun i => getRelObj db target i f)
    let rest ← collectChildren db target instances fs
    pure (here ++ rest)

mutual
/-- `HashedModelManager._ensure_impl`: normalize the batch, insert the
deduplicated instances (recursively ensuring forward references first), then
insert every accumulated reverse-relation group, skipping its back-reference
to this model. -/
def ensure_impl (U : Registry) : Nat → String → DB → List Item →
    Except Err (DB × List Inst)
  | 0, _, _, _ => throw .outOfFuel
  | fuel + 1, typ, db, items => do
    let n ← normalizeItems U (fuel + 1) typ items
    let p ← do_insert U fuel typ db n.1 []
    let db ← reversePhase U fuel typ p.1 n.2
    pure (db, p.2)

/-- `HashedModelManager._do_insert`: deduplicate the batch by primary key,
ensure every referenced hashed table not in `skip_ensure`, query which of the
batch's keys already exist, and bulk-insert only the missing rows (skipping
the write entirely when everything exists).  `bulk_create` reads the insert
model's concrete fields off each inserted object (`Field.pre_save` /
`getattr`), so an instance of a *different* model lacks them and raises
`AttributeError` before anything is written; the model detects that by the
instance's class.  Returns the deduplicated instances. -/
def do_insert (U : Registry) : Nat → String → DB → List Inst → List String →
    Except Err (DB × List Inst)
  | 0, _, _, _, _ => throw .outOfFuel
  | fuel + 1, m, db, instances, skip => do
    let instances := dedupByPk instances
    let db ← ensureRefs U fuel m db instances (tableRefs U m) skip
    let allPks := instances.map Inst.chash
    let existing := ((db.table m).filter (fun i => allPks.contains i.chash)).map Inst.chash
    if allPks.length > existing.length then
      let toInsert := instances.filter (fun i => ¬ existing.contains i.chash)
      if toInsert.all (fun i => i.typ = m) then
        pure ({ db with rows := db.rows ++ toInsert.map (fun i => (m, i)) }, instances)
      else
        throw .attrError
    else
      pure (db, instances)

/-- The foreign-key pre-ensure loop of `_do_insert` (models.py lines
99-105). -/
def ensureRefs (U : Registry) : Nat → String → DB → List Inst →
    List (String × List String) → List String → Except Err DB
  | 0, _, _, _, _, _ => throw .outOfFuel
  | _ + 1, _, db, _, [], _ => pure db
  | fuel + 1, m, db, instances, (target, fnames) :: rest, skip =>
    if skip.contains target then ensureRefs U fuel m db instances rest skip
    else do
      let children ← collectChildren db target instances fnames
      let p ← ensure_impl U fuel target db children
      ensureRefs U fuel m p.1 instances rest skip

/-- The reverse-relation insert loop of `_ensure_impl` (models.py lines
76-77): one `_do_insert` per accumulated `(model, field)` group, with
`skip_ensure=[self.model]`. -/
def reversePhase (U : Registry) : Nat → String → DB → RR → Except Err DB
  | 0, _, _, _ => throw .outOfFuel
  | _ + 1, _, db, [] => pure db
  | fuel + 1, typ, db, e :: rest => do
    let p ← do_insert U fuel e.1.1 db e.2 [typ]
    reversePhase U fuel typ p.1 rest
end

/-- `HashedModelManager.ensure`: `_ensure_impl` inside `transaction.atomic`.
Atomicity is inherent to the model: an `Except.error` result carries no
store, so the caller retains the pre-call `DB` — exactly a rollback. -/
def ensure (U : Registry) (fuel : Nat) (typ : String) (db : DB) (items : List Item) :
    Except Err (DB × List Inst) :=
  ensure_impl U fuel typ db items

/-- `HashedModel.save`: recompute `content_hash` from the current field
values, then `Model.save` upserts by the (new) primary key: an existing row
with that key is replaced, otherwise a row is appended.  A row stored under a
previous hash is never touched. -/
def save (U : Registry) (db : DB) (i : Inst) : Except Err DB :=
  match get_content_hash U i.typ i [] with
  | none => throw .hashError
  | some h =>
    let i' := i.withHash h
    if (db.table i'.typ).any (fun j => j.chash = some h) then
      let newRows := db.rows.map
        (fun r => if r.1 = i'.typ && r.2.chash = some h then (r.1, i') else r)
      pure { db with rows := newRows }
    else
      pure { db with rows := db.rows ++ [(i'.typ, i')] }

/-- `HashedListItemModelManager.ensure_items`: the `(list_hash, order, item)`
rows bulk-created for a new list, `order` counting from `start`. -/
def ensure_items (lh : Value) (start : Nat) : List Inst → List (Value × Nat × Value)
  | [] => []
  | i :: rest => (lh, start, i.chash.getD .pynone) :: ensure_items lh (start + 1) rest

/-- `HashedListModelManager.ensure_list`: ensure the items, hash the list of
their primary keys in order, return the existing list row if that hash is
already present (without touching membership), else create the list row and
bulk-insert the position-tagged membership rows with 1-based positions. -/
def ensure_list (U : Registry) (fuel : Nat) (itemTyp : String) (db : DB)
    (items : List Item) : Except Err (DB × Value) := do
  let p ← ensure_impl U fuel itemTyp db items
  match make_hash (.vlist (p.2.map (fun i => i.chash.getD .pynone))) with
  | none => throw .hashError
  | some lh =>
    if p.1.lists.contains lh then pure (p.1, lh)
    else
      pure ({ p.1 with
        lists := p.1.lists ++ [lh],
        listItems := p.1.listItems ++ ensure_items lh 1 p.2 }, lh)

/-- The empty store. -/
def emptyDB : DB := ⟨[], [], []⟩

/-- Schema registry for the test models of `roesti/tests.py` used by the
concrete witnesses: `TestModel` (plain fields), `TestReferencesModel`
(forward references), `TestBackrefModel`/`TestBackrefReference` (reverse
relation), `TestItem` (list items).  Unknown names resolve to an empty plain
schema. -/
def testU : Registry := fun m =>
  if m = "TestModel" then
    ⟨["char_field_1", "integer_field_1"], fun _ => .plain⟩
  else if m = "TestBackrefModel" then
    ⟨["text", "items"], fun f =>
      if f = "items" then .reverse "TestBackrefReference" "backref_id" else .plain⟩
  else if m = "TestBackrefReference" then
    ⟨["ref_text"], fun f =>
      if f = "backref" ∨ f = "backref_id" then .fk "TestBackrefModel" "backref"
      else .plain⟩
  else if m = "TestReferencesModel" then
    ⟨["test_model_1_id", "test_model_2_id", "integer_field_1"], fun f =>
      if f = "test_model_1" ∨ f = "test_model_1_id" then .fk "TestModel" "test_model_1"
      else if f = "test_model_2" ∨ f = "test_model_2_id" then .fk "TestModel" "test_model_2"
      else .plain⟩
  else if m = "TestItem" then
    ⟨["text"], fun _ => .plain⟩
  else ⟨[], fun _ => .plain⟩

/-- A caller-constructed `TestModel` instance whose `content_hash` was set by
hand to a value that is not the hash of its fields. -/
def bogusInst : Inst :=
  .mk "TestModel" [("char_field_1", .str "field 1 value 1"), ("integer_field_1", .int 1)]
    [] (some (.str "bogus"))

/-- C2: `ensure`'s docstring (models.py lines 45-46) promises "The
`content_hash` of each item will be (re)calculated on each item", and the
specification repeats it, but the code (line 67) recomputes only when the
hash is falsy: a caller-constructed instance with a stale `content_hash` is
returned and stored under the stale key, violating the invariant
`content_hash == Hash(Canonicalize({f: value(f) for f in hash_fields}))`.
Here `ensure` keeps the `"bogus"` key even though the true content hash of
the instance's fields exists and differs. -/
theorem ensure_keeps_stale_hash :
    (ensure testU 5 "TestModel" emptyDB [.record bogusInst]).map
        (fun p => p.2.map Inst.chash) = .ok [some (.str "bogus")] ∧
    (get_content_hash testU "TestModel" bogusInst []).isSome = true ∧
    get_content_hash testU "TestModel" bogusInst [] ≠ some (.str "bogus") := by
  refine ⟨rfl, rfl, ?_⟩
  decide

/-- The duplicated batch input of `tests.py::test_duplicate_insert`, reduced
to a plain model. -/
def dup1 : List (String × InVal) :=
  [("char_field_1", .val (.str "field 1 value 1")), ("integer_field_1", .val (.int 1))]

/-- C1 (counterexample): for a batch of two content-identical inputs the
claim predicts `len(result) == 2`, but `_do_insert` deduplicates the batch by
primary key (`{instance.pk: instance}.values()`) and `_ensure_impl` returns
that deduplicated collection, so `ensure([a, a])` returns one instance (and
writes one row) — exactly what `tests.py::test_duplicate_insert` asserts
(`assertEqual(len(instances), 1)`). -/
theorem ensure_dup_batch_returns_one :
    (ensure testU 100 "TestModel" emptyDB [.map dup1, .map dup1]).map
      (fun p => (p.2.length, p.1.rows.length)) = .ok (1, 1) := rfl

theorem ok_bind {ε α β : Type} (a : α) (f : α → Except ε β) :
    (Except.ok a >>= f) = f a := rfl

theorem pure_eq_ok {ε α : Type} (a : α) : (pure a : Except ε α) = .ok a := rfl

theorem ebind_ok_iff0 {ε α β : Type} (x : Except ε α) (f : α → Except ε β) (b : β) :
    (x >>= f) = .ok b ↔ ∃ a, x = .ok a ∧ f a = .ok b := by
  cases x
  · rw [show ((Except.error _ : Except ε α) >>= f) = Except.error _ from rfl]
    simp
  · rw [show ((Except.ok _ : Except ε α) >>= f) = f _ from rfl]
    simp

theorem typ_setVal (i : Inst) (f : String) (v : Value) : (i.setVal f v).typ = i.typ := rfl

theorem typ_setObj (i : Inst) (f : String) (c : Inst) : (i.setObj f c).typ = i.typ := rfl

/-- The resolver never changes which model an instance belongs to: setting
attributes, caching related objects and assigning the hash all preserve the
instance's class, and `from_dict` builds its instance from the manager's own
model. -/
theorem resolver_typ : ∀ fuel : Nat,
    (∀ U typ d p, from_dict U fuel typ d = .ok p → p.1.typ = typ) ∧
    (∀ U typ i d p, set_dict U fuel typ i d = .ok p → p.1.typ = i.typ) ∧
    (∀ U typ i d p, setFields U fuel typ i d = .ok p → p.1.typ = i.typ) ∧
    (∀ U typ i f v p, applyField U fuel typ i f v = .ok p → p.1.typ = i.typ) := by
  intro fuel
  induction fuel with
  | zero =>
    refine ⟨?_, ?_, ?_, ?_⟩
    · exact fun U t d p h => nomatch h
    · exact fun U t i d p h => nomatch h
    · exact fun U t i d p h => nomatch h
    · exact fun U t i f v p h => nomatch h
  | succ fuel ih =>
    obtain ⟨ihF, ihSD, ihSF, ihA⟩ := ih
    have hA : ∀ U typ i f v p,
        applyField U (fuel + 1) typ i f v = .ok p → p.1.typ = i.typ := by
      intro U typ i f v p h
      match v with
      | .map d =>
        simp only [applyField] at h
        split at h
        · split at h
          · obtain ⟨q, hq, h⟩ := (ebind_ok_iff0 _ _ _).mp h
            rw [pure_eq_ok] at h
            cases h
            rw [typ_setVal, typ_setObj]
          · cases h
        · cases h
      | .seq items =>
        simp only [applyField] at h
        split at h
        · obtain ⟨rr, hrr, h⟩ := (ebind_ok_iff0 _ _ _).mp h
          rw [pure_eq_ok] at h
          cases h
          rfl
        · cases h
        · rw [pure_eq_ok] at h
          cases h
          rw [typ_setVal]
      | .val w =>
        simp only [applyField] at h
        split at h
        · rw [pure_eq_ok] at h
          cases h
          rfl
        · split at h
          · split at h
            · cases h
            · rw [pure_eq_ok] at h
              cases h
              rw [typ_setVal]
          · cases h
          · rw [pure_eq_ok] at h
            cases h
            rw [typ_setVal]
    have hSF : ∀ U typ i d p,
        setFields U (fuel + 1) typ i d = .ok p → p.1.typ = i.typ := by
      intro U typ i d p h
      match d with
      | [] =>
        cases h
        rfl
      | (f, v) :: rest =>
        simp only [setFields] at h
        obtain ⟨q1, h1, h⟩ := (ebind_ok_iff0 _ _ _).mp h
        obtain ⟨q2, h2, h⟩ := (ebind_ok_iff0 _ _ _).mp h
        rw [pure_eq_ok] at h
        cases h
        rw [show ((q2.1, rrMerge q1.2 q2.2) : Inst × RR).1 = q2.1 from rfl,
          ihSF _ _ _ _ _ h2, ihA _ _ _ _ _ _ h1]
    have hSD : ∀ U typ i d p,
        set_dict U (fuel + 1) typ i d = .ok p → p.1.typ = i.typ := by
      intro U typ i d p h
      simp only [set_dict] at h
      obtain ⟨q, hq, h⟩ := (ebind_ok_iff0 _ _ _).mp h
      rcases hg : get_content_hash U typ q.1 q.2 with _ | hv <;> simp only [hg] at h
      · cases h
      · obtain ⟨rr, hrr, h⟩ := (ebind_ok_iff0 _ _ _).mp h
        rw [pure_eq_ok] at h
        cases h
        exact ihSF U typ i d q hq
    have hF : ∀ U typ d p, from_dict U (fuel + 1) typ d = .ok p → p.1.typ = typ := by
      intro U typ d p h
      simp only [from_dict] at h
      exact ihSD _ _ _ _ _ h
    exact ⟨hF, hSD, hSF, hA⟩

/-- Every instance a batch of mappings normalizes to belongs to the
manager's model. -/
theorem normalizeItems_map_typ : ∀ (U : Registry) (fuel : Nat) (typ : String)
    (items : List Item) (insts : List Inst) (rr : RR),
    (∀ it ∈ items, ∃ d, it = Item.map d) →
    normalizeItems U fuel typ items = .ok (insts, rr) →
    ∀ i ∈ insts, i.typ = typ := by
  intro U fuel typ items
  induction items with
  | nil =>
    intro insts rr _ h i hi
    cases h
    cases hi
  | cons it rest ih =>
    intro insts rr hm h i hi
    obtain ⟨d, rfl⟩ := hm it (List.mem_cons_self _ _)
    simp only [normalizeItems] at h
    obtain ⟨p, hp, h⟩ := (ebind_ok_iff0 _ _ _).mp h
    obtain ⟨q, hq, h⟩ := (ebind_ok_iff0 _ _ _).mp h
    rw [pure_eq_ok] at h
    rcases h with ⟨rfl, rfl⟩
    rcases List.mem_cons.mp hi with rfl | hi2
    · exact (resolver_typ fuel).1 _ _ _ _ hp
    · exact ih q.1 q.2 (fun x hx => hm x (List.mem_cons_of_mem _ hx))
        (by rw [hq]) i hi2

/-- C1 (amended): a batch of two mappings with identical hash-field content
(equal content hashes, no related records, hash not yet stored) writes
exactly one row — the store grows by exactly the single deduplicated record —
and `ensure` returns the one instance both inputs collapsed to (the list has
length 1, not 2). -/
theorem ensure_dedup_single_write (U : Registry) (f : Nat) (typ : String) (db : DB)
    (a b : List (String × InVal)) (i1 i2 : Inst) (h : Value)
    (hn : normalizeItems U (f + 3) typ [.map a, .map b] = .ok ([i1, i2], []))
    (h1 : i1.chash = some h) (h2 : i2.chash = some h)
    (hrefs : tableRefs U typ = [])
    (hfresh : ∀ r ∈ db.table typ, r.chash ≠ some h) :
    ensure U (f + 3) typ db [.map a, .map b] =
      .ok ({ db with rows := db.rows ++ [(typ, i2)] }, [i2]) := by
  have hdedup : dedupByPk [i1, i2] = [i2] := by
    simp [dedupByPk, dedupInsert, h1, h2]
  have hfilter : (db.table typ).filter
      (fun i => (List.map Inst.chash [i2]).contains i.chash) = [] := by
    rw [List.filter_eq_nil_iff]
    intro r hr
    simp only [List.map_cons, List.map_nil, List.contains_cons, List.contains_nil,
      Bool.or_false, beq_iff_eq, Bool.or_eq_true, not_or]
    rw [h2]
    simp [hfresh r hr]
  have hmaps : ∀ it ∈ ([Item.map a, Item.map b] : List Item), ∃ d, it = Item.map d := by
    intro it hit
    rcases List.mem_cons.mp hit with rfl | hit2
    · exact ⟨a, rfl⟩
    · rcases List.mem_cons.mp hit2 with rfl | hit3
      · exact ⟨b, rfl⟩
      · cases hit3
  have htyp : i2.typ = typ :=
    normalizeItems_map_typ U (f + 3) typ _ _ _ hmaps hn i2 (by simp)
  rw [show f + 3 = ((f + 1) + 1) + 1 by rfl]
  unfold ensure ensure_impl
  rw [show ((f + 1) + 1) + 1 = f + 3 by rfl, hn]
  rw [ok_bind]
  unfold do_insert
  rw [hdedup, hrefs]
  unfold ensureRefs
  simp only [pure_eq_ok, ok_bind]
  rw [hfilter]
  simp only [List.map_nil, List.map_cons, List.length_cons, List.length_nil,
    List.contains_nil, Bool.not_false, decide_not, List.filter_cons, List.filter_nil,
    gt_iff_lt, Nat.zero_lt_one, if_true, Bool.not_false, if_pos]
  unfold reversePhase
  simp only [pure_eq_ok, ok_bind]
  norm_num
  rw [if_pos htyp, ok_bind]

/-- C1 (witness): the amended theorem applied to the concrete duplicated
batch, starting from the empty store. -/
theorem ensure_dedup_single_write_witness :
    ∃ (i1 i2 : Inst) (h : Value),
      normalizeItems testU 103 "TestModel" [.map dup1, .map dup1] = .ok ([i1, i2], []) ∧
      i1.chash = some h ∧ i2.chash = some h ∧
      ensure testU 103 "TestModel" emptyDB [.map dup1, .map dup1] =
        .ok ({ emptyDB with rows := emptyDB.rows ++ [("TestModel", i2)] }, [i2]) := by
  refine ⟨_, _, _, rfl, rfl, rfl, ?_⟩
  exact ensure_dedup_single_write testU 100 "TestModel" emptyDB dup1 dup1 _ _ _
    rfl rfl rfl rfl (by intro r hr; simp [emptyDB, DB.table] at hr)

theorem error_bind {ε α β : Type} (e : ε) (f : α → Except ε β) :
    ((Except.error e : Except ε α) >>= f) = .error e := rfl

theorem bind_error_iff {ε α β : Type} (x : Except ε α) (f : α → Except ε β) (e : ε) :
    (x >>= f) = .error e ↔ x = .error e ∨ ∃ a, x = .ok a ∧ f a = .error e := by
  cases x with
  | error e' =>
    rw [error_bind]
    simp
  | ok a =>
    rw [ok_bind]
    simp

theorem patchBackrefs_no_invalid (U : Registry) (typ : String) (h : Value) :
    ∀ rr : RR, patchBackrefs U typ h rr ≠ .error .invalidInput := by
  intro rr
  induction rr with
  | nil => intro hx; cases hx
  | cons e rest ih =>
    intro hx
    match e with
    | ((cm, att), insts) =>
      simp only [patchBackrefs] at hx
      rw [bind_error_iff] at hx
      rcases hx with hx | ⟨a, _, hx⟩
      · exact ih hx
      · rcases hk : (U cm).kindOf att with _ | ⟨t, o⟩ | ⟨c, at2⟩ <;> rw [hk] at hx
        · cases hx
        · by_cases ht : t = typ <;> simp [ht, pure_eq_ok] at hx
        · cases hx

theorem resolver_no_invalid : ∀ fuel : Nat,
    (∀ U typ d, from_dict U fuel typ d ≠ .error .invalidInput) ∧
    (∀ U typ i d, set_dict U fuel typ i d ≠ .error .invalidInput) ∧
    (∀ U typ i d, setFields U fuel typ i d ≠ .error .invalidInput) ∧
    (∀ U typ i f v, applyField U fuel typ i f v ≠ .error .invalidInput) ∧
    (∀ U c a items, resolveChildren U fuel c a items ≠ .error .invalidInput) := by
  intro fuel
  induction fuel with
  | zero =>
    refine ⟨?_, ?_, ?_, ?_, ?_⟩
    · exact fun U t d h => nomatch h
    · exact fun U t i d h => nomatch h
    · exact fun U t i d h => nomatch h
    · exact fun U t i f v h => by cases v <;> exact nomatch h
    · exact fun U c a it h => nomatch h
  | succ fuel ih =>
    obtain ⟨ihF, ihSD, ihSF, ihA, ihR⟩ := ih
    have happ : ∀ U typ i f v, applyField U (fuel + 1) typ i f v ≠ .error .invalidInput := by
      intro U typ i f v h
      match v with
      | .map d' =>
        simp only [applyField] at h
        split at h
        · split at h
          · rw [bind_error_iff] at h
            rcases h with h | ⟨c2, _, h⟩
            · exact ihF _ _ _ h
            · cases h
          · cases h
        · cases h
      | .seq items =>
        simp only [applyField] at h
        split at h
        · rw [bind_error_iff] at h
          rcases h with h | ⟨rr, _, h⟩
          · exact ihR _ _ _ _ h
          · cases h
        · cases h
        · cases h
      | .val w =>
        simp only [applyField] at h
        split at h
        · cases h
        · split at h
          · split at h
            · cases h
            · cases h
          · cases h
          · cases h
    have hres : ∀ U c a items, resolveChildren U (fuel + 1) c a items ≠ .error .invalidInput := by
      intro U c a items h
      match items with
      | [] => cases h
      | .map d :: rest =>
        simp only [resolveChildren] at h
        rw [bind_error_iff] at h
        rcases h with h | ⟨p, _, h⟩
        · exact ihF _ _ _ h
        · rw [bind_error_iff] at h
          rcases h with h | ⟨rr, _, h⟩
          · exact ihR _ _ _ _ h
          · cases h
      | .val w :: rest => cases h
      | .seq s :: rest => cases h
    have hsf : ∀ U typ i d, setFields U (fuel + 1) typ i d ≠ .error .invalidInput := by
      intro U typ i d h
      match d with
      | [] => cases h
      | (f, v) :: rest =>
        simp only [setFields] at h
        rw [bind_error_iff] at h
        rcases h with h | ⟨p, _, h⟩
        · exact ihA _ _ _ _ _ h
        · rw [bind_error_iff] at h
          rcases h with h | ⟨q, _, h⟩
          · exact ihSF _ _ _ _ h
          · cases h
    have hsd : ∀ U typ i d, set_dict U (fuel + 1) typ i d ≠ .error .invalidInput := by
      intro U typ i d h
      simp only [set_dict] at h
      rw [bind_error_iff] at h
      rcases h with h | ⟨p, _, h⟩
      · exact ihSF _ _ _ _ h
      · rcases hg : get_content_hash U typ p.1 p.2 with _ | hv <;> rw [hg] at h
        · cases h
        · rw [bind_error_iff] at h
          rcases h with h | ⟨rr, _, h⟩
          · exact patchBackrefs_no_invalid _ _ _ _ h
          · cases h
    have hfd : ∀ U typ d, from_dict U (fuel + 1) typ d ≠ .error .invalidInput := by
      intro U typ d h
      simp only [from_dict] at h
      exact ihSD _ _ _ _ h
    exact ⟨hfd, hsd, hsf, happ, hres⟩

/-- A caller-constructed instance of a *different* hashed model
(`TestItem`), passed to `ensure` on `TestModel`. -/
def wrongTypedRec : Inst :=
  .mk "TestItem" [("text", .str "some item text")] [] (some (.str "itemhash"))

/-- The forward FK descriptor only ever yields record items. -/
theorem getRelObj_ok_record {db : DB} {target : String} {i : Inst} {f : String}
    {it : Item} (h : getRelObj db target i f = .ok it) : ∃ j, it = Item.record j := by
  unfold getRelObj at h
  rcases ho : i.getObj f with _ | child <;> simp only [ho] at h
  · rcases hv : i.getVal (f ++ "_id") with _ | pkv <;> simp only [hv] at h
    · cases h
    · by_cases hp : pkv = Value.pynone
      · rw [if_pos hp] at h
        cases h
      · rw [if_neg hp] at h
        rcases hf : db.find target pkv with _ | row <;> simp only [hf] at h
        · cases h
        · cases h
          exact ⟨row, rfl⟩
  · cases h
    exact ⟨child, rfl⟩

theorem getRelObj_no_invalid (db : DB) (target : String) (i : Inst) (f : String) :
    getRelObj db target i f ≠ .error .invalidInput := by
  intro h
  unfold getRelObj at h
  rcases ho : i.getObj f with _ | child <;> simp only [ho] at h
  · rcases hv : i.getVal (f ++ "_id") with _ | pkv <;> simp only [hv] at h
    · cases h
    · by_cases hp : pkv = Value.pynone
      · rw [if_pos hp] at h
        cases h
      · rw [if_neg hp] at h
        rcases hf : db.find target pkv with _ | row <;> simp only [hf] at h <;> cases h
  · cases h

theorem mapM_getRelObj_no_invalid (db : DB) (target f : String) :
    ∀ instances : List Inst,
      instances.mapM (fun i => getRelObj db target i f) ≠ .error .invalidInput := by
  intro instances
  induction instances with
  | nil => intro h; cases h
  | cons j js ih =>
    intro h
    rw [List.mapM_cons, bind_error_iff] at h
    rcases h with h | ⟨a, _, h⟩
    · exact getRelObj_no_invalid db target j f h
    · rw [bind_error_iff] at h
      rcases h with h | ⟨as, _, h⟩
      · exact ih h
      · cases h

theorem mapM_getRelObj_records (db : DB) (target f : String) :
    ∀ (instances : List Inst) (here : List Item),
      instances.mapM (fun i => getRelObj db target i f) = .ok here →
      ∀ it ∈ here, ∃ j, it = Item.record j := by
  intro instances
  induction instances with
  | nil =>
    intro here h it hit
    cases h
    cases hit
  | cons j js ih =>
    intro here h it hit
    rw [List.mapM_cons] at h
    obtain ⟨a, ha, h⟩ := (ebind_ok_iff0 _ _ _).mp h
    obtain ⟨as, has, h⟩ := (ebind_ok_iff0 _ _ _).mp h
    rw [pure_eq_ok] at h
    cases h
    rcases List.mem_cons.mp hit with rfl | hit2
    · exact getRelObj_ok_record ha
    · exact ih as has it hit2

theorem collectChildren_no_invalid (db : DB) (target : String) (instances : List Inst) :
    ∀ fs : List String,
      collectChildren db target instances fs ≠ .error .invalidInput := by
  intro fs
  induction fs with
  | nil => intro h; cases h
  | cons f rest ih =>
    intro h
    simp only [collectChildren] at h
    rw [bind_error_iff] at h
    rcases h with h | ⟨here, _, h⟩
    · exact mapM_getRelObj_no_invalid db target f instances h
    · rw [bind_error_iff] at h
      rcases h with h | ⟨tail, _, h⟩
      · exact ih h
      · cases h

/-- Every item the children generator feeds to the recursive ensure is a
record. -/
theorem collectChildren_records (db : DB) (target : String) (instances : List Inst) :
    ∀ (fs : List String) (items : List Item),
      collectChildren db target instances fs = .ok items →
      ∀ it ∈ items, ∃ j, it = Item.record j := by
  intro fs
  induction fs with
  | nil =>
    intro items h it hit
    cases h
    cases hit
  | cons f rest ih =>
    intro items h it hit
    simp only [collectChildren] at h
    obtain ⟨here, hh, h⟩ := (ebind_ok_iff0 _ _ _).mp h
    obtain ⟨tail, ht, h⟩ := (ebind_ok_iff0 _ _ _).mp h
    rw [pure_eq_ok] at h
    cases h
    rcases List.mem_append.mp hit with hit1 | hit2
    · exact mapM_getRelObj_records db target f instances here hh it hit1
    · exact ih tail ht it hit2

/-- The normalization loop raises the invalid-input `ValueError` only at a
batch element that is neither a mapping nor a model instance. -/
theorem normalizeItems_invalid : ∀ (U : Registry) (fuel : Nat) (typ : String)
    (items : List Item), normalizeItems U fuel typ items = .error .invalidInput →
    ∃ v, Item.other v ∈ items := by
  intro U fuel typ items
  induction items with
  | nil => intro h; cases h
  | cons it rest ih =>
    intro h
    match it with
    | .map d =>
      simp only [normalizeItems] at h
      rw [bind_error_iff] at h
      rcases h with h | ⟨p, _, h⟩
      · exact absurd h ((resolver_no_invalid fuel).1 _ _ _)
      · rw [bind_error_iff] at h
        rcases h with h | ⟨q, _, h⟩
        · obtain ⟨v, hv⟩ := ih h
          exact ⟨v, List.mem_cons_of_mem _ hv⟩
        · cases h
    | .record i =>
      simp only [normalizeItems] at h
      rcases hc : i.chash with _ | hv2 <;> rw [hc] at h
      · rcases hg : get_content_hash U i.typ i [] with _ | g <;> rw [hg] at h
        · rw [show (throw Err.hashError : Except Err Inst) = Except.error Err.hashError
            from rfl, error_bind] at h
          cases h
        · rw [bind_error_iff] at h
          rcases h with h | ⟨y, _, h⟩
          · rw [pure_eq_ok] at h
            cases h
          · rw [bind_error_iff] at h
            rcases h with h | ⟨q, _, h⟩
            · obtain ⟨v, hv⟩ := ih h
              exact ⟨v, List.mem_cons_of_mem _ hv⟩
            · cases h
      · rw [bind_error_iff] at h
        rcases h with h | ⟨y, _, h⟩
        · rw [pure_eq_ok] at h
          cases h
        · rw [bind_error_iff] at h
          rcases h with h | ⟨q, _, h⟩
          · obtain ⟨v, hv⟩ := ih h
            exact ⟨v, List.mem_cons_of_mem _ hv⟩
          · cases h
    | .other v => exact ⟨v, List.mem_cons_self _ _⟩

/-- The whole engine surfaces the invalid-input error only from the caller's
batch: the recursive phases (forward-reference pre-ensures, reverse phase)
operate on record items produced by the FK descriptor and never raise it. -/
theorem engine_no_invalid : ∀ fuel : Nat,
    (∀ U typ db items, ensure_impl U fuel typ db items = .error .invalidInput →
      ∃ v, Item.other v ∈ items) ∧
    (∀ U m db insts skip, do_insert U fuel m db insts skip ≠ .error .invalidInput) ∧
    (∀ U m db insts refs skip,
      ensureRefs U fuel m db insts refs skip ≠ .error .invalidInput) ∧
    (∀ U typ db rr, reversePhase U fuel typ db rr ≠ .error .invalidInput) := by
  intro fuel
  induction fuel with
  | zero =>
    refine ⟨?_, ?_, ?_, ?_⟩
    · exact fun U t db it h => nomatch h
    · exact fun U m db i s h => nomatch h
    · exact fun U m db i rf s h => nomatch h
    · exact fun U t db rr h => nomatch h
  | succ fuel ih =>
    obtain ⟨ihE, ihD, ihR, ihV⟩ := ih
    have hD : ∀ U m db insts skip,
        do_insert U (fuel + 1) m db insts skip ≠ .error .invalidInput := by
      intro U m db insts skip h
      simp only [do_insert] at h
      rw [bind_error_iff] at h
      rcases h with h | ⟨db2, _, h⟩
      · exact ihR _ _ _ _ _ _ h
      · split at h
        · split at h
          · cases h
          · cases h
        · cases h
    have hE : ∀ U typ db items,
        ensure_impl U (fuel + 1) typ db items = .error .invalidInput →
        ∃ v, Item.other v ∈ items := by
      intro U typ db items h
      simp only [ensure_impl] at h
      rw [bind_error_iff] at h
      rcases h with h | ⟨n, _, h⟩
      · exact normalizeItems_invalid _ _ _ _ h
      · rw [bind_error_iff] at h
        rcases h with h | ⟨p, _, h⟩
        · exact absurd h (ihD _ _ _ _ _)
        · rw [bind_error_iff] at h
          rcases h with h | ⟨db3, _, h⟩
          · exact absurd h (ihV _ _ _ _)
          · cases h
    have hR : ∀ U m db insts refs skip,
        ensureRefs U (fuel + 1) m db insts refs skip ≠ .error .invalidInput := by
      intro U m db insts refs skip h
      match refs with
      | [] => cases h
      | (target, fnames) :: rest =>
        simp only [ensureRefs] at h
        split at h
        · exact ihR _ _ _ _ _ _ h
        · rw [bind_error_iff] at h
          rcases h with h | ⟨ch, hch, h⟩
          · exact collectChildren_no_invalid _ _ _ _ h
          · rw [bind_error_iff] at h
            rcases h with h | ⟨p, _, h⟩
            · obtain ⟨v, hv⟩ := ihE _ _ _ _ h
              obtain ⟨j, hj⟩ := collectChildren_records _ _ _ _ _ hch _ hv
              cases hj
            · exact ihR _ _ _ _ _ _ h
    have hV : ∀ U typ db rr,
        reversePhase U (fuel + 1) typ db rr ≠ .error .invalidInput := by
      intro U typ db rr h
      match rr with
      | [] => cases h
      | e :: rest =>
        simp only [reversePhase] at h
        rw [bind_error_iff] at h
        rcases h with h | ⟨p, _, h⟩
        · exact ihD _ _ _ _ _ h
        · exact ihV _ _ _ _ h
    exact ⟨hE, hD, hR, hV⟩

/-- C9 (counterexample): the claim predicts the invalid-input error for a
record that is not of the expected type, but the code's check (models.py
line 66) is `isinstance(item, HashedModel)`, which any hashed model
instance passes; the failure comes only later, when `bulk_create` reads
`TestModel`'s fields off the `TestItem` instance (`Field.pre_save` /
`getattr`) and raises `AttributeError` — a different error than the
claimed `ValueError`, raised in a different phase, and rolled back by the
transaction. -/
theorem ensure_wrong_typed_record_attr_error :
    ensure testU 5 "TestModel" emptyDB [.record wrongTypedRec] = .error .attrError ∧
    Err.attrError ≠ Err.invalidInput :=
  ⟨rfl, fun h => nomatch h⟩

/-- C9 (amended): `ensure` raises the invalid-input `ValueError` only for a
batch element that is neither a mapping nor a model instance — of *any*
hashed-model type, not just the expected one: (1) whenever the whole
pipeline (normalization, recursive forward-reference ensures, reverse
phase) surfaces that error, the caller's batch contains such an element —
the recursive phases feed only record items resolved by the FK descriptor
and never raise it; (2) such an element raises it at once.  A record of
the wrong hashed-model type is accepted by the `isinstance` check and
instead fails later with `AttributeError` in `bulk_create`.  Abort-on-error
is inherent to the `Except`-valued model: an error result carries no store,
so the caller keeps the pre-call `DB` (the `transaction.atomic`
rollback). -/
theorem invalid_input_characterization :
    (∀ (U : Registry) (fuel : Nat) (typ : String) (db : DB) (items : List Item),
      ensure U fuel typ db items = .error .invalidInput → ∃ v, Item.other v ∈ items) ∧
    (∀ (U : Registry) (fuel : Nat) (typ : String) (v : Value) (rest : List Item),
      normalizeItems U fuel typ (Item.other v :: rest) = .error .invalidInput) := by
  constructor
  · intro U fuel typ db items h
    exact (engine_no_invalid fuel).1 U typ db items h
  · intro U fuel typ v rest
    rfl

/-- C9 (witness): a batch containing the raw integer `3` makes `ensure`
fail with the invalid-input error, and the amended theorem locates the
offending element in the batch. -/
theorem invalid_input_characterization_witness :
    ensure testU 5 "TestModel" emptyDB [Item.other (.int 3)] = .error .invalidInput ∧
    (∃ v, Item.other v ∈ ([Item.other (.int 3)] : List Item)) ∧
    normalizeItems testU 5 "TestModel" [Item.other (.int 3)] = .error .invalidInput := by
  refine ⟨rfl, invalid_input_characterization.1 testU 5 "TestModel" emptyDB _ rfl,
    invalid_input_characterization.2 testU 5 "TestModel" (.int 3) []⟩
/-- Re-keying an instance does not change the hash of its fields:
`content_hash` is not itself a hash field, and `_get_hash_field` reads only
the field attributes, which `withHash` leaves untouched. -/
theorem get_content_hash_withHash (U : Registry) (i : Inst) (h : Value) (rr : RR) :
    get_content_hash U (i.withHash h).typ (i.withHash h) rr =
      get_content_hash U i.typ i rr := rfl

/-- C10: a successful `save` recomputes `content_hash` from the record's
current hash-field values immediately before writing: the hash of the
current fields exists, the record re-keyed to it is in the store afterwards,
the stored row's primary key equals the hash of its own current hash-field
values, and every pre-existing row under a different key — in particular a
row stored under the record's *old* hash, if its fields were mutated after
hashing — survives untouched, as do the list tables. -/
theorem save_rehashes_before_write (U : Registry) (db : DB) (i : Inst) (db' : DB)
    (hs : save U db i = .ok db') :
    ∃ h, get_content_hash U i.typ i [] = some h ∧
      i.withHash h ∈ db'.table i.typ ∧
      (i.withHash h).chash =
        get_content_hash U (i.withHash h).typ (i.withHash h) [] ∧
      (∀ r ∈ db.rows, (r.1 = i.typ → r.2.chash ≠ some h) → r ∈ db'.rows) ∧
      db'.lists = db.lists ∧ db'.listItems = db.listItems := by
  unfold save at hs
  rcases hg : get_content_hash U i.typ i [] with _ | h <;> rw [hg] at hs
  · cases hs
  · refine ⟨h, rfl, ?_⟩
    rw [get_content_hash_withHash, hg]
    dsimp only [] at hs
    simp only [show (Inst.withHash i h).typ = i.typ from rfl] at hs
    split at hs
    next hex =>
      rw [pure_eq_ok] at hs
      cases hs
      obtain ⟨j, hj, hjh⟩ := List.any_eq_true.mp hex
      rw [decide_eq_true_eq] at hjh
      unfold DB.table at hj
      obtain ⟨r, hr, hro⟩ := List.mem_filterMap.mp hj
      by_cases hrt : r.1 = i.typ
      · rw [if_pos hrt, Option.some.injEq] at hro
        refine ⟨?_, rfl, ?_, rfl, rfl⟩
        · unfold DB.table
          apply List.mem_filterMap.mpr
          refine ⟨(r.1, i.withHash h), ?_, by rw [if_pos hrt]⟩
          apply List.mem_map.mpr
          refine ⟨r, hr, ?_⟩
          simp [hrt, hro, hjh]
        · intro s hsr hne
          apply List.mem_map.mpr
          refine ⟨s, hsr, ?_⟩
          by_cases hs1 : s.1 = i.typ
          · simp [hs1, hne hs1]
          · simp [hs1]
      · rw [if_neg hrt] at hro
        cases hro
    next hex =>
      rw [pure_eq_ok] at hs
      cases hs
      refine ⟨?_, rfl, ?_, rfl, rfl⟩
      · unfold DB.table
        apply List.mem_filterMap.mpr
        refine ⟨(i.typ, i.withHash h),
          List.mem_append_right _ (List.mem_singleton.mpr rfl), ?_⟩
        simp
      · intro s hsr _
        exact List.mem_append_left _ hsr

/-- C10 (witness): saving the stale-hashed `bogusInst` into the empty store
yields a store satisfying every clause of the characterization. -/
theorem save_rehashes_before_write_witness :
    ∃ db', save testU emptyDB bogusInst = .ok db' ∧
      ∃ h, get_content_hash testU bogusInst.typ bogusInst [] = some h ∧
        bogusInst.withHash h ∈ db'.table bogusInst.typ ∧
        (bogusInst.withHash h).chash =
          get_content_hash testU (bogusInst.withHash h).typ (bogusInst.withHash h) [] ∧
        (∀ r ∈ emptyDB.rows, (r.1 = bogusInst.typ → r.2.chash ≠ some h) → r ∈ db'.rows) ∧
        db'.lists = emptyDB.lists ∧ db'.listItems = emptyDB.listItems := by
  refine ⟨_, rfl, save_rehashes_before_write testU emptyDB bogusInst _ rfl⟩

/-- Membership rows are position-tagged densely from `start`: row `k` of
`ensure_items` carries position `start + k` and the `k`-th instance's key. -/
theorem ensure_items_get (lh : Value) (s : Nat) (l : List Inst) (k : Nat) :
    (ensure_items lh s l).get? k =
      (l.get? k).map (fun i => (lh, s + k, i.chash.getD .pynone)) := by
  induction l generalizing s k with
  | nil => simp [ensure_items]
  | cons i rest ih =>
    cases k with
    | zero => simp [ensure_items]
    | succ k =>
      simp only [ensure_items, List.get?_cons_succ]
      rw [ih (s + 1) k]
      have hsk : s + 1 + k = s + (k + 1) := by omega
      rw [hsk]

/-- A list of digests is already canonical: `freeze` passes each through. -/
theorem freezeL_digests : ∀ l : List Value,
    (∀ v ∈ l, ∃ d, v = .digest d) → freezeL l = some l := by
  intro l
  induction l with
  | nil => intro _; rfl
  | cons v rest ih =>
    intro hd
    obtain ⟨d, hv⟩ := hd v (List.mem_cons_self _ _)
    subst hv
    simp only [freezeL, freeze, Option.some_bind]
    rw [ih (fun x hx => hd x (List.mem_cons_of_mem _ hx))]
    rfl

/-- Digests pickle. -/
theorem pickleOkL_digests : ∀ l : List Value,
    (∀ v ∈ l, ∃ d, v = .digest d) → pickleOkL l = true := by
  intro l
  induction l with
  | nil => intro _; rfl
  | cons v rest ih =>
    intro hd
    obtain ⟨d, hv⟩ := hd v (List.mem_cons_self _ _)
    subst hv
    simp only [pickleOkL, pickleOk, Bool.true_and]
    exact ih (fun x hx => hd x (List.mem_cons_of_mem _ hx))

/-- The hash of a list of digests (such as a list of primary keys) is the
digest of the order-preserving tuple of those digests. -/
theorem make_hash_digest_list (l : List Value) (hd : ∀ v ∈ l, ∃ d, v = .digest d) :
    make_hash (.vlist l) = some (.digest (.vtuple l)) := by
  simp only [make_hash, freeze]
  rw [freezeL_digests l hd]
  show (if pickleOk (Value.vtuple l) = true then some (Value.digest (Value.vtuple l))
    else none) = some (Value.digest (Value.vtuple l))
  rw [show pickleOk (Value.vtuple l) = pickleOkL l from rfl, pickleOkL_digests l hd,
    if_pos rfl]

/-- List item inputs used by the list witnesses (`roesti/tests.py` uses
`TestItem` rows with a single `text` field). -/
def itA : List (String × InVal) := [("text", .val (.str "item text 1"))]

def itB : List (String × InVal) := [("text", .val (.str "item text 2"))]

/-- C7 (counterexample): the claim assigns the list "the hash of the ordered
sequence of its item hashes" with one `(position, item-hash)` row per input
item, but `ensure_list` first runs the items through `_ensure_impl`, whose
`_do_insert` deduplicates by primary key.  For the three-item list
`[a, a, b]` the batch's item-hash sequence is `[pk_a, pk_a, pk_b]`, yet the
stored identity is the hash of the *deduplicated* `[pk_a, pk_b]` — a
different digest — and only two membership rows are written. -/
theorem ensure_list_dedups_duplicate_items :
    ∃ db' lh pk1 pk2,
      ensure_list testU 100 "TestItem" emptyDB [.map itA, .map itA, .map itB] =
        .ok (db', lh) ∧
      (normalizeItems testU 100 "TestItem" [.map itA, .map itA, .map itB]).map
          (fun n => n.1.map (fun i => i.chash.getD .pynone)) = .ok [pk1, pk1, pk2] ∧
      make_hash (.vlist [pk1, pk1, pk2]) ≠ some lh ∧
      db'.listItems.length = 2 := by
  refine ⟨_, _, _, _, rfl, rfl, ?_, rfl⟩
  decide

/-- C7 (amended): `ensure_list` keys the list by the hash of the ordered
sequence of the primary keys of the *ensured, deduplicated* item instances
(order preserved, not sorted).  If a list row with that key exists the store
is returned unchanged (membership is not re-written); otherwise the list row
is appended and the membership rows are bulk-created.  Membership rows are
dense and 1-based: row `k` carries position `1 + k` and the `k`-th ensured
instance's key, in input order.  The identity is order-sensitive: on lists
of digests (primary keys), `make_hash` of the sequence is injective, so any
reordering that changes the sequence changes the list identity, while equal
sequences give the same identity. -/
theorem ensure_list_identity (U : Registry) (f : Nat) (ityp : String) (db : DB)
    (items : List Item) (db1 : DB) (insts : List Inst) (lh : Value)
    (he : ensure_impl U f ityp db items = .ok (db1, insts))
    (hlh : make_hash (.vlist (insts.map (fun i => i.chash.getD .pynone))) = some lh) :
    ensure_list U f ityp db items =
      (if db1.lists.contains lh then .ok (db1, lh)
       else .ok ({ db1 with
         lists := db1.lists ++ [lh],
         listItems := db1.listItems ++ ensure_items lh 1 insts }, lh)) ∧
    (∀ (lh2 : Value) (l : List Inst) (k : Nat),
      (ensure_items lh2 1 l).get? k =
        (l.get? k).map (fun i => (lh2, 1 + k, i.chash.getD .pynone))) ∧
    (∀ l1 l2 : List Value,
      (∀ v ∈ l1, ∃ d, v = .digest d) → (∀ v ∈ l2, ∃ d, v = .digest d) →
      (make_hash (.vlist l1) = make_hash (.vlist l2) ↔ l1 = l2)) := by
  refine ⟨?_, fun lh2 l k => ensure_items_get lh2 1 l k, ?_⟩
  · unfold ensure_list
    rw [he, ok_bind, hlh]
    rfl
  · intro l1 l2 h1 h2
    rw [make_hash_digest_list l1 h1, make_hash_digest_list l2 h2]
    simp

/-- C7 (witness): the amended characterization applied to the concrete
two-item list over the empty store. -/
theorem ensure_list_identity_witness :
    ∃ db1 insts lh,
      ensure_impl testU 100 "TestItem" emptyDB [.map itA, .map itB] = .ok (db1, insts) ∧
      make_hash (.vlist (insts.map (fun i => i.chash.getD .pynone))) = some lh ∧
      ensure_list testU 100 "TestItem" emptyDB [.map itA, .map itB] =
        (if db1.lists.contains lh then .ok (db1, lh)
         else .ok ({ db1 with
           lists := db1.lists ++ [lh],
           listItems := db1.listItems ++ ensure_items lh 1 insts }, lh)) := by
  refine ⟨_, _, _, rfl, rfl, (ensure_list_identity testU 100 "TestItem" emptyDB
    [.map itA, .map itB] _ _ _ rfl rfl).1⟩

theorem obind_some_iff {α β : Type} (x : Option α) (f : α → Option β) (b : β) :
    (x >>= f) = some b ↔ ∃ a, x = some a ∧ f a = some b := by
  cases x <;> simp

theorem nodup_dedupStr : ∀ xs : List String, (dedupStr xs).Nodup := by
  intro xs
  induction xs with
  | nil => simp [dedupStr]
  | cons x xs ih =>
    rw [dedupStr]
    refine List.nodup_cons.mpr ⟨?_, List.Nodup.filter _ ih⟩
    intro hmem
    rw [List.mem_filter] at hmem
    simp at hmem

/-- Two hash-field dicts over the same field list whose values freeze
identically have identical frozen entry lists. -/
theorem freezeKV_map_congr (ds : List String) (g1 g2 : String → Value)
    (h : ∀ f ∈ ds, freeze (g1 f) = freeze (g2 f)) :
    freezeKV (ds.map (fun f => (Value.str f, g1 f))) =
      freezeKV (ds.map (fun f => (Value.str f, g2 f))) := by
  induction ds with
  | nil => rfl
  | cons f rest ih =>
    simp only [List.map_cons, freezeKV]
    rw [h f (List.mem_cons_self _ _), ih (fun x hx => h x (List.mem_cons_of_mem _ hx))]

/-- The content hash depends on the hash fields only through the frozen
value each contributes. -/
theorem get_content_hash_pointwise_congr (U : Registry) (typ : String) (i : Inst)
    (rr1 rr2 : RR)
    (h : ∀ f ∈ dedupStr (U typ).hash_fields,
      freeze (get_hash_field U typ i f rr1) = freeze (get_hash_field U typ i f rr2)) :
    get_content_hash U typ i rr1 = get_content_hash U typ i rr2 := by
  unfold get_content_hash make_hash get_hash_field_dict
  simp only [freeze]
  rw [freezeKV_map_congr _ _ _ h]

/-- A permutation between two lists with the same duplicate-free key
sequence is the identity. -/
theorem perm_eq_of_nodup_keys {α β : Type} (κ : α → β) :
    ∀ l1 l2 : List α, List.Perm l1 l2 → l1.map κ = l2.map κ →
      (l1.map κ).Nodup → l1 = l2 := by
  intro l1
  induction l1 with
  | nil =>
    intro l2 hp _ _
    exact hp.nil_eq
  | cons a t1 ih =>
    intro l2 hp hk hn
    cases l2 with
    | nil => exact absurd hp.symm (by simp)
    | cons b t2 =>
      simp only [List.map_cons, List.cons.injEq] at hk
      obtain ⟨hab, ht⟩ := hk
      simp only [List.map_cons, List.nodup_cons] at hn
      obtain ⟨hna, hnt⟩ := hn
      by_cases heq : a = b
      · subst heq
        rw [ih t2 hp.cons_inv ht hnt]
      · have hmem : a ∈ t2 := by
          rcases List.mem_cons.mp (hp.mem_iff.mp (List.mem_cons_self a t1)) with h1 | h1
          · exact absurd h1 heq
          · exact h1
        have hka : κ a ∈ t2.map κ := List.mem_map_of_mem κ hmem
        rw [← ht] at hka
        exact absurd hka hna

/-- A frozen dict entry `(key, frozen value)` as the tuple `sorted` sees. -/
def embedKV (kv : Value × Value) : Value := .vtuple [kv.1, kv.2]

/-- The key component of a frozen dict entry. -/
def entryKey : Value → Value
  | .vtuple (k :: _) => k
  | _ => .pynone

theorem embedKV_inj : Function.Injective embedKV := by
  intro a b h
  cases a
  cases b
  simp only [embedKV, Value.vtuple.injEq, List.cons.injEq, and_true] at h
  rw [Prod.mk.injEq]
  exact h

/-- Equal frozen entry lists over the same field list give, field by field,
a common frozen value for both dicts' entries. -/
theorem freezeKV_map_eq : ∀ (ds : List String) (g1 g2 : String → Value)
    (frozen : List (Value × Value)),
    freezeKV (ds.map (fun f => (Value.str f, g1 f))) = some frozen →
    freezeKV (ds.map (fun f => (Value.str f, g2 f))) = some frozen →
    ∀ f ∈ ds, ∃ fv, freeze (g1 f) = some fv ∧ freeze (g2 f) = some fv := by
  intro ds
  induction ds with
  | nil =>
    intro g1 g2 frozen _ _ f hf
    exact absurd hf (List.not_mem_nil f)
  | cons x rest ih =>
    intro g1 g2 frozen h1 h2 f hf
    simp only [List.map_cons, freezeKV] at h1 h2
    obtain ⟨fv1, hfv1, h1⟩ := (obind_some_iff _ _ _).mp h1
    obtain ⟨fs1, hfs1, h1⟩ := (obind_some_iff _ _ _).mp h1
    obtain ⟨fv2, hfv2, h2⟩ := (obind_some_iff _ _ _).mp h2
    obtain ⟨fs2, hfs2, h2⟩ := (obind_some_iff _ _ _).mp h2
    simp only [Option.pure_def] at h1 h2
    rw [← h1] at h2
    simp only [Option.some.injEq, List.cons.injEq, Prod.mk.injEq] at h2
    obtain ⟨⟨_, hfv⟩, hfs⟩ := h2
    rcases List.mem_cons.mp hf with rfl | hf2
    · exact ⟨fv1, hfv1, by rw [hfv2, hfv]⟩
    · exact ih g1 g2 fs1 hfs1 (by rw [hfs2, hfs]) f hf2

/-- Shape of a successful `make_hash`. -/
theorem make_hash_some_shape {v hv : Value} (hm : make_hash v = some hv) :
    ∃ c, freeze v = some c ∧ pickleOk c = true ∧ hv = .digest c := by
  simp only [make_hash] at hm
  obtain ⟨c, hc, hm⟩ := (obind_some_iff _ _ _).mp hm
  refine ⟨c, hc, ?_⟩
  by_cases hp : pickleOk c = true
  · rw [if_pos hp] at hm
    cases hm
    exact ⟨hp, rfl⟩
  · rw [if_neg hp] at hm
    cases hm

/-- Shape of a successful dict freeze. -/
theorem freeze_vdict_shape {kvs : List (Value × Value)} {c : Value}
    (h : freeze (.vdict kvs) = some c) :
    ∃ frozen sorted, freezeKV kvs = some frozen ∧
      sortPy (frozen.map (fun kv => Value.vtuple [kv.1, kv.2])) = some sorted ∧
      c = .vtuple sorted := by
  simp only [freeze] at h
  obtain ⟨frozen, hf, h⟩ := (obind_some_iff _ _ _).mp h
  obtain ⟨sorted, hs, h⟩ := (obind_some_iff _ _ _).mp h
  cases h
  exact ⟨frozen, sorted, hf, hs, rfl⟩

/-- Shape of a successful set freeze. -/
theorem freeze_vset_shape {l : List Value} {fv : Value}
    (h : freeze (.vset l) = some fv) :
    ∃ s, fv = .vtuple s ∧ sortPy (pyDedup l) = some s := by
  simp only [freeze] at h
  obtain ⟨s, hs, h⟩ := (obind_some_iff _ _ _).mp h
  cases h
  exact ⟨s, rfl, hs⟩

/-- Injectivity of the dict hash in each field: two reverse-relation indexes
giving the same parent hash give, field by field, the same frozen value. -/
theorem content_hash_inj_fields (U : Registry) (typ : String) (i : Inst)
    (rr1 rr2 : RR) (hv : Value)
    (h1 : get_content_hash U typ i rr1 = some hv)
    (h2 : get_content_hash U typ i rr2 = some hv) :
    ∀ f ∈ dedupStr (U typ).hash_fields,
      ∃ fv, freeze (get_hash_field U typ i f rr1) = some fv ∧
            freeze (get_hash_field U typ i f rr2) = some fv := by
  unfold get_content_hash get_hash_field_dict at h1 h2
  obtain ⟨c1, hc1, hp1, hd1⟩ := make_hash_some_shape h1
  obtain ⟨c2, hc2, hp2, hd2⟩ := make_hash_some_shape h2
  rw [hd1] at hd2
  simp only [Value.digest.injEq] at hd2
  subst hd2
  obtain ⟨fr1, s1, hf1, hs1, hcs1⟩ := freeze_vdict_shape hc1
  obtain ⟨fr2, s2, hf2, hs2, hcs2⟩ := freeze_vdict_shape hc2
  rw [hcs1] at hcs2
  simp only [Value.vtuple.injEq] at hcs2
  subst hcs2
  have hp12 : List.Perm (fr1.map embedKV) (fr2.map embedKV) :=
    (sortPy_perm hs1).symm.trans (sortPy_perm hs2)
  have hkeys1 : (fr1.map embedKV).map entryKey =
      (dedupStr (U typ).hash_fields).map Value.str := by
    rw [List.map_map]
    have he : entryKey ∘ embedKV = Prod.fst := by
      funext kv
      rfl
    rw [he, freezeKV_keys hf1, List.map_map]
    rfl
  have hkeys2 : (fr2.map embedKV).map entryKey =
      (dedupStr (U typ).hash_fields).map Value.str := by
    rw [List.map_map]
    have he : entryKey ∘ embedKV = Prod.fst := by
      funext kv
      rfl
    rw [he, freezeKV_keys hf2, List.map_map]
    rfl
  have hnk : ((fr1.map embedKV).map entryKey).Nodup := by
    rw [hkeys1]
    exact (nodup_dedupStr _).map (fun a b hab => by simpa using hab)
  have heq : fr1.map embedKV = fr2.map embedKV :=
    perm_eq_of_nodup_keys entryKey _ _ hp12 (hkeys1.trans hkeys2.symm) hnk
  have hfr : fr1 = fr2 := List.map_injective_iff.mpr embedKV_inj heq
  exact freezeKV_map_eq _ _ _ fr1 hf1 (by rw [hfr]; exact hf2)

/-- Two element lists freezing (as sets) to a common value have the same
members. -/
theorem freeze_vset_mem_iff {l1 l2 : List Value} {fv : Value}
    (h1 : freeze (.vset l1) = some fv) (h2 : freeze (.vset l2) = some fv) :
    ∀ v, v ∈ l1 ↔ v ∈ l2 := by
  obtain ⟨s1, hfv1, hs1⟩ := freeze_vset_shape h1
  obtain ⟨s2, hfv2, hs2⟩ := freeze_vset_shape h2
  rw [hfv1] at hfv2
  simp only [Value.vtuple.injEq] at hfv2
  subst hfv2
  intro v
  constructor
  · intro hv
    exact mem_pyDedup.mp ((sortPy_perm hs2).mem_iff.mp
      ((sortPy_perm hs1).mem_iff.mpr (mem_pyDedup.mpr hv)))
  · intro hv
    exact mem_pyDedup.mp ((sortPy_perm hs1).mem_iff.mp
      ((sortPy_perm hs2).mem_iff.mpr (mem_pyDedup.mpr hv)))

/-- Two reverse-relation indexes agree on children when every key resolves
in both to child lists carrying the same *set* of primary keys (or in
neither). -/
def rrSameChildren (rr1 rr2 : RR) : Prop :=
  ∀ cm att : String,
    match rrLookup rr1 (cm, att), rrLookup rr2 (cm, att) with
    | none, none => True
    | some l1, some l2 =>
      ∀ v, v ∈ l1.map (fun c => c.chash.getD Value.pynone) ↔
           v ∈ l2.map (fun c => c.chash.getD Value.pynone)
    | _, _ => False

/-- C4: the reverse-relation contribution to a parent's identity is the
*set* of child primary keys.  (1) Two reverse-relation indexes whose
accumulated children carry the same key sets for every group — in
particular, the same children in any order — give the parent the same
content hash.  (2) The value a reverse hash field contributes is literally
the set of the accumulated children's keys.  (3) Conversely, equal parent
hashes force equal child key sets on every reverse hash field, so children
differing in content (different key sets) change the parent hash. -/
theorem reverse_relation_identity :
    (∀ (U : Registry) (typ : String) (i : Inst) (rr1 rr2 : RR),
      rrSameChildren rr1 rr2 →
      get_content_hash U typ i rr1 = get_content_hash U typ i rr2) ∧
    (∀ (U : Registry) (typ f cm att : String) (i : Inst) (rr : RR) (l : List Inst),
      (U typ).kindOf f = .reverse cm att → rrLookup rr (cm, att) = some l →
      get_hash_field U typ i f rr = .vset (l.map (fun c => c.chash.getD .pynone))) ∧
    (∀ (U : Registry) (typ f cm att : String) (i : Inst) (rr1 rr2 : RR) (hv : Value)
       (l1 l2 : List Inst),
      get_content_hash U typ i rr1 = some hv →
      get_content_hash U typ i rr2 = some hv →
      f ∈ dedupStr (U typ).hash_fields →
      (U typ).kindOf f = .reverse cm att →
      rrLookup rr1 (cm, att) = some l1 → rrLookup rr2 (cm, att) = some l2 →
      ∀ v, v ∈ l1.map (fun c => c.chash.getD Value.pynone) ↔
           v ∈ l2.map (fun c => c.chash.getD Value.pynone)) := by
  refine ⟨?_, ?_, ?_⟩
  · intro U typ i rr1 rr2 hrr
    apply get_content_hash_pointwise_congr
    intro f _
    rcases hk : (U typ).kindOf f with _ | ⟨t, o⟩ | ⟨cm, att⟩ <;>
      simp only [get_hash_field, hk]
    have h := hrr cm att
    rcases hl1 : rrLookup rr1 (cm, att) with _ | l1 <;>
      rcases hl2 : rrLookup rr2 (cm, att) with _ | l2 <;>
      rw [hl1, hl2] at h <;> simp only [hl1, hl2]
    · exact h.elim
    · exact h.elim
    · exact freeze_vset_congr h
  · intro U typ f cm att i rr l hk hl
    simp only [get_hash_field, hk, hl]
  · intro U typ f cm att i rr1 rr2 hv l1 l2 h1 h2 hf hk hl1 hl2
    obtain ⟨fv, hfv1, hfv2⟩ := content_hash_inj_fields U typ i rr1 rr2 hv h1 h2 f hf
    have hgf1 : get_hash_field U typ i f rr1 =
        .vset (l1.map (fun c => c.chash.getD Value.pynone)) := by
      simp only [get_hash_field, hk, hl1]
    have hgf2 : get_hash_field U typ i f rr2 =
        .vset (l2.map (fun c => c.chash.getD Value.pynone)) := by
      simp only [get_hash_field, hk, hl2]
    rw [hgf1] at hfv1
    rw [hgf2] at hfv2
    exact freeze_vset_mem_iff hfv1 hfv2

/-- Concrete children, parent and reverse-relation indexes (the children in
the two opposite accumulation orders) for the C4 witness. -/
def childW1 : Inst :=
  .mk "TestBackrefReference" [("ref_text", .str "child a")] [] (some (.str "ka"))

def childW2 : Inst :=
  .mk "TestBackrefReference" [("ref_text", .str "child b")] [] (some (.str "kb"))

def parentW : Inst := .mk "TestBackrefModel" [("text", .str "parent")] [] none

def rrW1 : RR := [(("TestBackrefReference", "backref_id"), [childW1, childW2])]

def rrW2 : RR := [(("TestBackrefReference", "backref_id"), [childW2, childW1])]

/-- C4 (witness): the same two children accumulated in opposite orders give
the `TestBackrefModel` parent the same content hash. -/
theorem reverse_relation_identity_witness :
    rrSameChildren rrW1 rrW2 ∧
    get_content_hash testU "TestBackrefModel" parentW rrW1 =
      get_content_hash testU "TestBackrefModel" parentW rrW2 := by
  have hs : rrSameChildren rrW1 rrW2 := by
    intro cm att
    by_cases hk : (("TestBackrefReference", "backref_id") : String × String) = (cm, att)
    · have e1 : rrLookup rrW1 (cm, att) = some [childW1, childW2] := by
        simp [rrLookup, rrW1, List.find?, hk]
      have e2 : rrLookup rrW2 (cm, att) = some [childW2, childW1] := by
        simp [rrLookup, rrW2, List.find?, hk]
      simp only [e1, e2]
      intro v
      simp only [List.map_cons, List.map_nil, List.mem_cons, List.not_mem_nil, or_false]
      exact or_comm
    · have e1 : rrLookup rrW1 (cm, att) = none := by
        simp [rrLookup, rrW1, List.find?, hk]
      have e2 : rrLookup rrW2 (cm, att) = none := by
        simp [rrLookup, rrW2, List.find?, hk]
      simp only [e1, e2]
  exact ⟨hs, reverse_relation_identity.1 testU "TestBackrefModel" parentW rrW1 rrW2 hs⟩

theorem ebind_ok_iff {ε α β : Type} (x : Except ε α) (f : α → Except ε β) (b : β) :
    (x >>= f) = .ok b ↔ ∃ a, x = .ok a ∧ f a = .ok b := by
  cases x
  · rw [error_bind]
    simp
  · rw [ok_bind]
    simp

/-- C5: back-patching and upward propagation during resolution.
(1) `patchBackrefs` maps the accumulated index entry-wise: a group whose
back-pointer field is a foreign key to *this* record's type has the record's
hash written into each child's back-pointer attribute, a group pointing at a
different type passes through unchanged (and a successful patch means every
group's back-pointer is some foreign key).  (2) `set_dict` runs exactly that
patch with the hash it has just computed from the resolved fields, returns
the re-keyed instance and propagates the *patched* index to its caller.
(3) Patching really sets the attribute: reading the back-pointer attribute
after `setVal` yields the hash.  (4) The field loop merges each field's
accumulated index (including a nested child's, hence a grandchild's) into
the one it hands upward. -/
theorem backpatch_propagation :
    (∀ (U : Registry) (typ : String) (h : Value) (rr rr' : RR),
      patchBackrefs U typ h rr = .ok rr' →
      List.Forall₂ (fun e e' : (String × String) × List Inst =>
        e'.1 = e.1 ∧ ∃ t o, (U e.1.1).kindOf e.1.2 = FieldKind.fk t o ∧
          ((t = typ ∧ e'.2 = e.2.map (fun c => c.setVal e.1.2 h)) ∨
           (t ≠ typ ∧ e'.2 = e.2))) rr rr') ∧
    (∀ (U : Registry) (fuel : Nat) (typ : String) (i : Inst)
       (d : List (String × InVal)) (i' : Inst) (rr' : RR),
      set_dict U (fuel + 1) typ i d = .ok (i', rr') →
      ∃ p h, setFields U fuel typ i d = .ok p ∧
        get_content_hash U typ p.1 p.2 = some h ∧
        patchBackrefs U typ h p.2 = .ok rr' ∧ i' = p.1.withHash h) ∧
    (∀ (c : Inst) (att : String) (h : Value), (c.setVal att h).getVal att = some h) ∧
    (∀ (U : Registry) (fuel : Nat) (typ f : String) (i : Inst) (v : InVal)
       (rest : List (String × InVal)) (r : Inst × RR),
      setFields U (fuel + 1) typ i ((f, v) :: rest) = .ok r →
      ∃ p q, applyField U fuel typ i f v = .ok p ∧
        setFields U fuel typ p.1 rest = .ok q ∧ r = (q.1, rrMerge p.2 q.2)) := by
  refine ⟨?_, ?_, ?_, ?_⟩
  · intro U typ h rr
    induction rr with
    | nil =>
      intro rr' hp
      cases hp
      exact List.Forall₂.nil
    | cons e rest ih =>
      intro rr' hp
      match e with
      | ((cm, att), insts) =>
        simp only [patchBackrefs] at hp
        obtain ⟨rest', hrest, hp⟩ := (ebind_ok_iff _ _ _).mp hp
        rcases hk : (U cm).kindOf att with _ | ⟨t, o⟩ | ⟨c2, a2⟩ <;>
          simp only [hk] at hp
        · cases hp
        · split at hp
          next ht =>
            rw [pure_eq_ok] at hp
            cases hp
            exact List.Forall₂.cons ⟨rfl, t, o, hk, .inl ⟨ht, rfl⟩⟩ (ih _ hrest)
          next ht =>
            rw [pure_eq_ok] at hp
            cases hp
            exact List.Forall₂.cons ⟨rfl, t, o, hk, .inr ⟨ht, rfl⟩⟩ (ih _ hrest)
        · cases hp
  · intro U fuel typ i d i' rr' hp
    simp only [set_dict] at hp
    obtain ⟨p, hsf, hp⟩ := (ebind_ok_iff _ _ _).mp hp
    rcases hg : get_content_hash U typ p.1 p.2 with _ | h <;> simp only [hg] at hp
    · cases hp
    · obtain ⟨rr2, hpb, hp⟩ := (ebind_ok_iff _ _ _).mp hp
      rw [pure_eq_ok] at hp
      rcases hp with ⟨⟩
      exact ⟨p, h, hsf, hg, hpb, rfl⟩
  · intro c att h
    cases c
    simp [Inst.setVal, Inst.getVal, Inst.vals, List.find?]
  · intro U fuel typ f i v rest r hp
    simp only [setFields] at hp
    obtain ⟨p, hap, hp⟩ := (ebind_ok_iff _ _ _).mp hp
    obtain ⟨q, hsf, hp⟩ := (ebind_ok_iff _ _ _).mp hp
    rw [pure_eq_ok] at hp
    rcases hp with ⟨⟩
    exact ⟨p, q, hap, hsf, rfl⟩

/-- A `TestBackrefModel` input dict with one reverse-relation child, for the
C5 witness. -/
def brd : List (String × InVal) :=
  [("text", .val (.str "p")), ("items", .seq [.map [("ref_text", .val (.str "c"))]])]

/-- C5 (witness): resolving the concrete parent decomposes exactly as the
characterization states — fields first, then the hash, then the patched
index handed upward. -/
theorem backpatch_propagation_witness :
    ∃ i' rr' p h,
      set_dict testU 50 "TestBackrefModel" (Inst.mk "TestBackrefModel" [] [] none) brd =
        .ok (i', rr') ∧
      setFields testU 49 "TestBackrefModel" (Inst.mk "TestBackrefModel" [] [] none) brd =
        .ok p ∧
      get_content_hash testU "TestBackrefModel" p.1 p.2 = some h ∧
      patchBackrefs testU "TestBackrefModel" h p.2 = .ok rr' ∧
      i' = p.1.withHash h := by
  obtain ⟨p, h, h1, h2, h3, h4⟩ := backpatch_propagation.2.1 testU 49 "TestBackrefModel"
    (Inst.mk "TestBackrefModel" [] [] none) brd _ _ rfl
  exact ⟨_, _, p, h, rfl, h1, h2, h3, h4⟩

/-- `db'` extends `db`: the engine only ever appends rows. -/
def dbLe (db db' : DB) : Prop := ∃ ext, db'.rows = db.rows ++ ext

theorem dbLe_refl (db : DB) : dbLe db db := ⟨[], by simp⟩

theorem dbLe_trans {a b c : DB} (h1 : dbLe a b) (h2 : dbLe b c) : dbLe a c := by
  obtain ⟨e1, h1⟩ := h1
  obtain ⟨e2, h2⟩ := h2
  exact ⟨e1 ++ e2, by rw [h2, h1, List.append_assoc]⟩

theorem dbLe_table {db db' : DB} (h : dbLe db db') (m : String) :
    ∃ ext, db'.table m = db.table m ++ ext := by
  obtain ⟨e, he⟩ := h
  exact ⟨_, by rw [DB.table, he, List.filterMap_append]; rfl⟩

theorem mem_table_of_dbLe {db db' : DB} (h : dbLe db db') (m : String) {r : Inst}
    (hr : r ∈ db.table m) : r ∈ db'.table m := by
  obtain ⟨e, he⟩ := dbLe_table h m
  rw [he]
  exact List.mem_append_left _ hr

theorem find?_append_of_some {α : Type} (p : α → Bool) (l1 l2 : List α) (a : α)
    (h : l1.find? p = some a) : (l1 ++ l2).find? p = some a := by
  induction l1 with
  | nil => cases h
  | cons x t ih =>
    rw [List.cons_append]
    rcases hp : p x with _ | _
    · rw [List.find?_cons_of_neg _ (by simp [hp])]
      rw [List.find?_cons_of_neg _ (by simp [hp])] at h
      exact ih h
    · rw [List.find?_cons_of_pos _ hp]
      rw [List.find?_cons_of_pos _ hp] at h
      exact h

theorem dbLe_find {db db' : DB} (h : dbLe db db') (m : String) {pk : Value} {row : Inst}
    (hf : db.find m pk = some row) : db'.find m pk = some row := by
  obtain ⟨e, he⟩ := dbLe_table h m
  rw [DB.find, he]
  rw [DB.find] at hf
  exact find?_append_of_some _ _ _ _ hf

theorem dbLe_filter_length {db db' : DB} (h : dbLe db db') (m : String) (p : Inst → Bool) :
    ((db.table m).filter p).length ≤ ((db'.table m).filter p).length := by
  obtain ⟨e, he⟩ := dbLe_table h m
  rw [he, List.filter_append, List.length_append]
  omega

theorem dedupInsert_pks_nodup (acc : List Inst) (i : Inst)
    (h : (acc.map Inst.chash).Nodup) :
    ((dedupInsert acc i).map Inst.chash).Nodup := by
  unfold dedupInsert
  split
  next hany =>
    have hmap : (acc.map (fun j => if j.chash = i.chash then i else j)).map Inst.chash =
        acc.map Inst.chash := by
      rw [List.map_map]
      apply List.map_congr_left
      intro j hj
      by_cases hc : j.chash = i.chash
      · simp [hc]
      · simp [hc]
    rw [hmap]
    exact h
  next hany =>
    rw [List.map_append, List.nodup_append]
    refine ⟨h, by simp, ?_⟩
    intro x hx
    simp only [List.map_cons, List.map_nil, List.mem_cons, List.not_mem_nil, or_false]
    intro hxi
    subst hxi
    obtain ⟨j, hj, hjc⟩ := List.mem_map.mp hx
    exact hany (List.any_eq_true.mpr ⟨j, hj, by simp [hjc]⟩)

/-- `{instance.pk: instance}` has pairwise-distinct keys. -/
theorem dedupByPk_pks_nodup (l : List Inst) : ((dedupByPk l).map Inst.chash).Nodup := by
  suffices h : ∀ acc : List Inst, (acc.map Inst.chash).Nodup →
      ((l.foldl dedupInsert acc).map Inst.chash).Nodup by
    exact h [] (by simp)
  induction l with
  | nil =>
    intro acc h
    simpa using h
  | cons x t ih =>
    intro acc h
    rw [List.foldl_cons]
    exact ih _ (dedupInsert_pks_nodup acc x h)

/-- The FK descriptor resolves identically on any extension of the store. -/
theorem getRelObj_dbLe {db db' : DB} (h : dbLe db db') (target : String) (i : Inst)
    (f : String) {it : Item} (hg : getRelObj db target i f = .ok it) :
    getRelObj db' target i f = .ok it := by
  unfold getRelObj at hg ⊢
  rcases ho : i.getObj f with _ | child <;> simp only [ho] at hg ⊢
  · rcases hv : i.getVal (f ++ "_id") with _ | pkv <;> simp only [hv] at hg ⊢
    · exact hg
    · by_cases hp : pkv = Value.pynone
      · rw [if_pos hp] at hg ⊢
        exact hg
      · rw [if_neg hp] at hg ⊢
        rcases hf : db.find target pkv with _ | row <;> simp only [hf] at hg
        · cases hg
        · rw [dbLe_find h _ hf]
          exact hg
  · exact hg

theorem mapM_getRelObj_dbLe {db db' : DB} (h : dbLe db db') (target f : String) :
    ∀ (instances : List Inst) (here : List Item),
      instances.mapM (fun i => getRelObj db target i f) = .ok here →
      instances.mapM (fun i => getRelObj db' target i f) = .ok here := by
  intro instances
  induction instances with
  | nil =>
    intro here hh
    exact hh
  | cons j js ihj =>
    intro here hh
    rw [List.mapM_cons] at hh ⊢
    obtain ⟨a, ha, hh⟩ := (ebind_ok_iff _ _ _).mp hh
    obtain ⟨as, has, hh⟩ := (ebind_ok_iff _ _ _).mp hh
    exact (ebind_ok_iff _ _ _).mpr ⟨a, getRelObj_dbLe h target j f ha,
      (ebind_ok_iff _ _ _).mpr ⟨as, ihj as has, hh⟩⟩

/-- The children generator resolves identically on any extension. -/
theorem collectChildren_dbLe {db db' : DB} (h : dbLe db db') (target : String)
    (instances : List Inst) :
    ∀ (fs : List String) (items : List Item),
      collectChildren db target instances fs = .ok items →
      collectChildren db' target instances fs = .ok items := by
  intro fs
  induction fs with
  | nil =>
    intro items hc
    exact hc
  | cons f rest ih =>
    intro items hc
    simp only [collectChildren] at hc ⊢
    obtain ⟨here, hh, hc⟩ := (ebind_ok_iff _ _ _).mp hc
    obtain ⟨tail, ht, hc⟩ := (ebind_ok_iff _ _ _).mp hc
    exact (ebind_ok_iff _ _ _).mpr ⟨here, mapM_getRelObj_dbLe h target f instances here hh,
      (ebind_ok_iff _ _ _).mpr ⟨tail, ih tail ht, hc⟩⟩

/-- The ensure engine only appends rows: every phase returns an extension of
the store it was given. -/
theorem engine_growth : ∀ fuel : Nat,
    (∀ U typ db items db' r,
      ensure_impl U fuel typ db items = .ok (db', r) → dbLe db db') ∧
    (∀ U m db insts skip db' out,
      do_insert U fuel m db insts skip = .ok (db', out) → dbLe db db') ∧
    (∀ U m db insts refs skip db',
      ensureRefs U fuel m db insts refs skip = .ok db' → dbLe db db') ∧
    (∀ U typ db rr db', reversePhase U fuel typ db rr = .ok db' → dbLe db db') := by
  intro fuel
  induction fuel with
  | zero =>
    refine ⟨?_, ?_, ?_, ?_⟩
    · exact fun U t db it db' r h => nomatch h
    · exact fun U m db i s db' o h => nomatch h
    · exact fun U m db i rf s db' h => nomatch h
    · exact fun U t db rr db' h => nomatch h
  | succ fuel ih =>
    obtain ⟨ihE, ihD, ihR, ihV⟩ := ih
    have hD : ∀ U m db insts skip db' out,
        do_insert U (fuel + 1) m db insts skip = .ok (db', out) → dbLe db db' := by
      intro U m db insts skip db' out h
      simp only [do_insert] at h
      obtain ⟨db2, h2, h⟩ := (ebind_ok_iff _ _ _).mp h
      refine dbLe_trans (ihR _ _ _ _ _ _ _ h2) ?_
      split at h
      · split at h
        · rw [pure_eq_ok] at h
          rcases h with ⟨rfl, rfl⟩
          exact ⟨_, rfl⟩
        · cases h
      · rw [pure_eq_ok] at h
        rcases h with ⟨rfl, rfl⟩
        exact dbLe_refl _
    have hE : ∀ U typ db items db' r,
        ensure_impl U (fuel + 1) typ db items = .ok (db', r) → dbLe db db' := by
      intro U typ db items db' r h
      simp only [ensure_impl] at h
      obtain ⟨n, hn, h⟩ := (ebind_ok_iff _ _ _).mp h
      obtain ⟨p, hp, h⟩ := (ebind_ok_iff _ _ _).mp h
      obtain ⟨db3, h3, h⟩ := (ebind_ok_iff _ _ _).mp h
      rw [pure_eq_ok] at h
      rcases h with ⟨rfl, rfl⟩
      exact dbLe_trans (ihD _ _ _ _ _ p.1 p.2 hp) (ihV _ _ _ _ _ h3)
    have hR : ∀ U m db insts refs skip db',
        ensureRefs U (fuel + 1) m db insts refs skip = .ok db' → dbLe db db' := by
      intro U m db insts refs skip db' h
      match refs with
      | [] =>
        cases h
        exact dbLe_refl _
      | (target, fnames) :: rest =>
        simp only [ensureRefs] at h
        split at h
        · exact ihR _ _ _ _ _ _ _ h
        · obtain ⟨ch, hch, h⟩ := (ebind_ok_iff _ _ _).mp h
          obtain ⟨p, hp, h⟩ := (ebind_ok_iff _ _ _).mp h
          exact dbLe_trans (ihE _ _ _ _ p.1 p.2 hp) (ihR _ _ _ _ _ _ _ h)
    have hV : ∀ U typ db rr db',
        reversePhase U (fuel + 1) typ db rr = .ok db' → dbLe db db' := by
      intro U typ db rr db' h
      match rr with
      | [] =>
        cases h
        exact dbLe_refl _
      | e :: rest =>
        simp only [reversePhase] at h
        obtain ⟨p, hp, h⟩ := (ebind_ok_iff _ _ _).mp h
        exact dbLe_trans (ihD _ _ _ _ _ p.1 p.2 hp) (ihV _ _ _ _ _ h)
    exact ⟨hE, hD, hR, hV⟩

/-- Re-running any phase of the engine on a store that already extends the
phase's own result is a no-op: it returns that store unchanged with the same
instances.  This is the heart of idempotence: the existence query finds
every key the first run ensured, so the guarded `bulk_create` is skipped. -/
theorem engine_stable : ∀ fuel : Nat,
    (∀ U typ dbX items dbY r db1,
      ensure_impl U fuel typ dbX items = .ok (dbY, r) → dbLe dbY db1 →
      ensure_impl U fuel typ db1 items = .ok (db1, r)) ∧
    (∀ U m dbX insts skip dbY out db1,
      do_insert U fuel m dbX insts skip = .ok (dbY, out) → dbLe dbY db1 →
      do_insert U fuel m db1 insts skip = .ok (db1, out)) ∧
    (∀ U m dbX insts refs skip dbY db1,
      ensureRefs U fuel m dbX insts refs skip = .ok dbY → dbLe dbY db1 →
      ensureRefs U fuel m db1 insts refs skip = .ok db1) ∧
    (∀ U typ dbX rr dbY db1,
      reversePhase U fuel typ dbX rr = .ok dbY → dbLe dbY db1 →
      reversePhase U fuel typ db1 rr = .ok db1) := by
  intro fuel
  induction fuel with
  | zero =>
    refine ⟨?_, ?_, ?_, ?_⟩
    · exact fun U t dbX it dbY r db1 h _ => nomatch h
    · exact fun U m dbX i s dbY o db1 h _ => nomatch h
    · exact fun U m dbX i rf s dbY db1 h _ => nomatch h
    · exact fun U t dbX rr dbY db1 h _ => nomatch h
  | succ fuel ih =>
    obtain ⟨ihE, ihD, ihR, ihV⟩ := ih
    obtain ⟨ghE, ghD, ghR, ghV⟩ := engine_growth fuel
    have hD : ∀ U m dbX insts skip dbY out db1,
        do_insert U (fuel + 1) m dbX insts skip = .ok (dbY, out) → dbLe dbY db1 →
        do_insert U (fuel + 1) m db1 insts skip = .ok (db1, out) := by
      intro U m dbX insts skip dbY out db1 h hle
      simp only [do_insert] at h ⊢
      obtain ⟨db2, h2, h⟩ := (ebind_ok_iff _ _ _).mp h
      split at h
      next hrun1 =>
        split at h
        next hall =>
          rw [pure_eq_ok] at h
          rcases h with ⟨rfl, rfl⟩
          have hle2 : dbLe db2 db1 := dbLe_trans ⟨_, rfl⟩ hle
          refine (ebind_ok_iff _ _ _).mpr ⟨db1, ihR _ _ _ _ _ _ _ _ h2 hle2, ?_⟩
          have hpres : ∀ v ∈ (dedupByPk insts).map Inst.chash,
              ∃ row ∈ db1.table m, row.chash = v := by
            intro v hv
            obtain ⟨i, hi, rfl⟩ := List.mem_map.mp hv
            by_cases hex : (((db2.table m).filter (fun j =>
                ((dedupByPk insts).map Inst.chash).contains j.chash)).map
                  Inst.chash).contains i.chash
            · obtain ⟨row, hrow, hrc⟩ := List.mem_map.mp (List.mem_of_elem_eq_true hex)
              exact ⟨row, mem_table_of_dbLe (dbLe_trans ⟨_, rfl⟩ hle) m
                (List.mem_filter.mp hrow).1, hrc⟩
            · refine ⟨i, mem_table_of_dbLe hle m ?_, rfl⟩
              refine List.mem_filterMap.mpr ⟨(m, i), ?_, by simp⟩
              refine List.mem_append_right _ ?_
              refine List.mem_map_of_mem _ ?_
              refine List.mem_filter.mpr ⟨hi, ?_⟩
              simpa using hex
          split
          next hc2 =>
            exfalso
            have hsub : ((dedupByPk insts).map Inst.chash) ⊆
                ((db1.table m).filter (fun j =>
                  ((dedupByPk insts).map Inst.chash).contains j.chash)).map Inst.chash := by
              intro v hv
              obtain ⟨row, hrow, hrc⟩ := hpres v hv
              refine List.mem_map.mpr ⟨row, List.mem_filter.mpr ⟨hrow, ?_⟩, hrc⟩
              exact List.elem_eq_true_of_mem (by rw [hrc]; exact hv)
            have hlen := ((dedupByPk_pks_nodup insts).subperm hsub).length_le
            omega
          next => rfl
        next hall => cases h
      next hrun1 =>
        rw [pure_eq_ok] at h
        rcases h with ⟨rfl, rfl⟩
        refine (ebind_ok_iff _ _ _).mpr ⟨db1, ihR _ _ _ _ _ _ _ _ h2 hle, ?_⟩
        split
        next hc2 =>
          exfalso
          have hmono := dbLe_filter_length hle m
            (fun j => ((dedupByPk insts).map Inst.chash).contains j.chash)
          simp only [List.length_map] at hc2 hrun1
          omega
        next => rfl
    have hE : ∀ U typ dbX items dbY r db1,
        ensure_impl U (fuel + 1) typ dbX items = .ok (dbY, r) → dbLe dbY db1 →
        ensure_impl U (fuel + 1) typ db1 items = .ok (db1, r) := by
      intro U typ dbX items dbY r db1 h hle
      simp only [ensure_impl] at h ⊢
      obtain ⟨n, hn, h⟩ := (ebind_ok_iff _ _ _).mp h
      obtain ⟨p, hp, h⟩ := (ebind_ok_iff _ _ _).mp h
      obtain ⟨db3, h3, h⟩ := (ebind_ok_iff _ _ _).mp h
      rw [pure_eq_ok] at h
      rcases h with ⟨rfl, rfl⟩
      refine (ebind_ok_iff _ _ _).mpr ⟨n, hn, ?_⟩
      have hleP : dbLe p.1 db1 := dbLe_trans (ghV _ _ _ _ _ h3) hle
      refine (ebind_ok_iff _ _ _).mpr ⟨(db1, p.2), ihD _ _ _ _ _ p.1 p.2 _ hp hleP, ?_⟩
      exact (ebind_ok_iff _ _ _).mpr ⟨db1, ihV _ _ _ _ _ _ h3 hle, rfl⟩
    have hR : ∀ U m dbX insts refs skip dbY db1,
        ensureRefs U (fuel + 1) m dbX insts refs skip = .ok dbY → dbLe dbY db1 →
        ensureRefs U (fuel + 1) m db1 insts refs skip = .ok db1 := by
      intro U m dbX insts refs skip dbY db1 h hle
      match refs with
      | [] =>
        cases h
        rfl
      | (target, fnames) :: rest =>
        simp only [ensureRefs] at h ⊢
        split at h
        next hskip =>
          rw [if_pos hskip]
          exact ihR _ _ _ _ _ _ _ _ h hle
        next hskip =>
          rw [if_neg hskip]
          obtain ⟨ch, hch, h⟩ := (ebind_ok_iff _ _ _).mp h
          obtain ⟨p, hp, h⟩ := (ebind_ok_iff _ _ _).mp h
          have hleX : dbLe dbX db1 :=
            dbLe_trans (ghE _ _ _ _ p.1 p.2 hp)
              (dbLe_trans (ghR _ _ _ _ _ _ _ h) hle)
          have hleP : dbLe p.1 db1 := dbLe_trans (ghR _ _ _ _ _ _ _ h) hle
          refine (ebind_ok_iff _ _ _).mpr
            ⟨ch, collectChildren_dbLe hleX target insts fnames ch hch, ?_⟩
          refine (ebind_ok_iff _ _ _).mpr
            ⟨(db1, p.2), ihE _ _ _ _ p.1 p.2 _ hp hleP, ?_⟩
          exact ihR _ _ _ _ _ _ _ _ h hle
    have hV : ∀ U typ dbX rr dbY db1,
        reversePhase U (fuel + 1) typ dbX rr = .ok dbY → dbLe dbY db1 →
        reversePhase U (fuel + 1) typ db1 rr = .ok db1 := by
      intro U typ dbX rr dbY db1 h hle
      match rr with
      | [] =>
        cases h
        rfl
      | e :: rest =>
        simp only [reversePhase] at h ⊢
        obtain ⟨p, hp, h⟩ := (ebind_ok_iff _ _ _).mp h
        have hleP : dbLe p.1 db1 := dbLe_trans (ghV _ _ _ _ _ h) hle
        refine (ebind_ok_iff _ _ _).mpr
          ⟨(db1, p.2), ihD _ _ _ _ _ p.1 p.2 _ hp hleP, ?_⟩
        exact ihV _ _ _ _ _ _ h hle
    exact ⟨hE, hD, hR, hV⟩

/-- The engine preserves primary-key uniqueness: `bulk_create` receives only
keys the existence query reported missing, and the deduplicated batch holds
each key once. -/
theorem engine_noDupPk : ∀ fuel : Nat,
    (∀ U typ db items db' r, db.noDupPk = true →
      ensure_impl U fuel typ db items = .ok (db', r) → db'.noDupPk = true) ∧
    (∀ U m db insts skip db' out, db.noDupPk = true →
      do_insert U fuel m db insts skip = .ok (db', out) → db'.noDupPk = true) ∧
    (∀ U m db insts refs skip db', db.noDupPk = true →
      ensureRefs U fuel m db insts refs skip = .ok db' → db'.noDupPk = true) ∧
    (∀ U typ db rr db', db.noDupPk = true →
      reversePhase U fuel typ db rr = .ok db' → db'.noDupPk = true) := by
  intro fuel
  induction fuel with
  | zero =>
    refine ⟨?_, ?_, ?_, ?_⟩
    · exact fun U t db it db' r _ h => nomatch h
    · exact fun U m db i s db' o _ h => nomatch h
    · exact fun U m db i rf s db' _ h => nomatch h
    · exact fun U t db rr db' _ h => nomatch h
  | succ fuel ih =>
    obtain ⟨ihE, ihD, ihR, ihV⟩ := ih
    have hD : ∀ U m db insts skip db' out, db.noDupPk = true →
        do_insert U (fuel + 1) m db insts skip = .ok (db', out) → db'.noDupPk = true := by
      intro U m db insts skip db' out hnd h
      simp only [do_insert] at h
      obtain ⟨db2, h2, h⟩ := (ebind_ok_iff _ _ _).mp h
      have hnd2 : db2.noDupPk = true := ihR _ _ _ _ _ _ _ hnd h2
      split at h
      next hw =>
        split at h
        next hall =>
          rw [pure_eq_ok] at h
          rcases h with ⟨rfl, rfl⟩
          simp only [DB.noDupPk, decide_eq_true_eq] at hnd2 ⊢
          rw [List.map_append, List.nodup_append]
          refine ⟨hnd2, ?_, ?_⟩
          · have hpk : ((dedupByPk insts).map Inst.chash).Nodup := dedupByPk_pks_nodup insts
            have hpkf : ((((dedupByPk insts).filter (fun i =>
                ¬(((db2.table m).filter (fun j =>
                  ((dedupByPk insts).map Inst.chash).contains j.chash)).map
                    Inst.chash).contains i.chash)).map Inst.chash)).Nodup :=
              List.Nodup.sublist (List.Sublist.map Inst.chash (List.filter_sublist _)) hpk
            have hstep : ((((dedupByPk insts).filter (fun i =>
                ¬(((db2.table m).filter (fun j =>
                  ((dedupByPk insts).map Inst.chash).contains j.chash)).map
                    Inst.chash).contains i.chash)).map Inst.chash).map
                  (fun c => ((m : String), c))).Nodup :=
              List.Nodup.map (fun a b hab => by simpa using hab) hpkf
            rw [List.map_map] at hstep
            rw [List.map_map]
            exact hstep
          · intro x hx hx2
            obtain ⟨r, hr, hxr⟩ := List.mem_map.mp hx
            obtain ⟨y, hy, hxy⟩ := List.mem_map.mp hx2
            obtain ⟨i, hif, hiy⟩ := List.mem_map.mp hy
            rw [← hxr] at hxy
            rw [← hiy] at hxy
            simp only [Prod.mk.injEq] at hxy
            obtain ⟨hm, hch⟩ := hxy
            obtain ⟨hidedup, hcond⟩ := List.mem_filter.mp hif
            rw [decide_eq_true_eq] at hcond
            apply hcond
            have hrt : r.2 ∈ db2.table m := by
              refine List.mem_filterMap.mpr ⟨r, hr, ?_⟩
              rw [if_pos hm.symm]
            have hin : i.chash ∈ (dedupByPk insts).map Inst.chash :=
              List.mem_map_of_mem _ hidedup
            have hrf : r.2 ∈ (db2.table m).filter (fun j =>
                ((dedupByPk insts).map Inst.chash).contains j.chash) := by
              refine List.mem_filter.mpr ⟨hrt, ?_⟩
              exact List.elem_eq_true_of_mem (by rw [← hch]; exact hin)
            exact List.elem_eq_true_of_mem
              (by rw [hch]; exact List.mem_map_of_mem Inst.chash hrf)
        next => cases h
      next =>
        rw [pure_eq_ok] at h
        rcases h with ⟨rfl, rfl⟩
        exact hnd2
    have hE : ∀ U typ db items db' r, db.noDupPk = true →
        ensure_impl U (fuel + 1) typ db items = .ok (db', r) → db'.noDupPk = true := by
      intro U typ db items db' r hnd h
      simp only [ensure_impl] at h
      obtain ⟨n, hn, h⟩ := (ebind_ok_iff _ _ _).mp h
      obtain ⟨p, hp, h⟩ := (ebind_ok_iff _ _ _).mp h
      obtain ⟨db3, h3, h⟩ := (ebind_ok_iff _ _ _).mp h
      rw [pure_eq_ok] at h
      rcases h with ⟨rfl, rfl⟩
      exact ihV _ _ _ _ _ (ihD _ _ _ _ _ p.1 p.2 hnd hp) h3
    have hR : ∀ U m db insts refs skip db', db.noDupPk = true →
        ensureRefs U (fuel + 1) m db insts refs skip = .ok db' → db'.noDupPk = true := by
      intro U m db insts refs skip db' hnd h
      match refs with
      | [] =>
        cases h
        exact hnd
      | (target, fnames) :: rest =>
        simp only [ensureRefs] at h
        split at h
        · exact ihR _ _ _ _ _ _ _ hnd h
        · obtain ⟨ch, hch, h⟩ := (ebind_ok_iff _ _ _).mp h
          obtain ⟨p, hp, h⟩ := (ebind_ok_iff _ _ _).mp h
          exact ihR _ _ _ _ _ _ _ (ihE _ _ _ _ p.1 p.2 hnd hp) h
    have hV : ∀ U typ db rr db', db.noDupPk = true →
        reversePhase U (fuel + 1) typ db rr = .ok db' → db'.noDupPk = true := by
      intro U typ db rr db' hnd h
      match rr with
      | [] =>
        cases h
        exact hnd
      | e :: rest =>
        simp only [reversePhase] at h
        obtain ⟨p, hp, h⟩ := (ebind_ok_iff _ _ _).mp h
        exact ihV _ _ _ _ _ (ihD _ _ _ _ _ p.1 p.2 hnd hp) h
    exact ⟨hE, hD, hR, hV⟩

/-- C6: `ensure` is idempotent and write-minimal.  A second call with the
same batch on the store the first call produced returns that store
*unchanged* — zero additional writes anywhere, including the recursive
forward-reference and reverse-relation phases — with the same instances.
And every call preserves at-most-one-row-per-key: starting from a store
whose `(table, content_hash)` pairs are duplicate-free, the result is
duplicate-free, so repeated calls with any content leave at most one stored
row per distinct content hash. -/
theorem ensure_idempotent :
    (∀ (U : Registry) (fuel : Nat) (typ : String) (db db1 : DB) (items : List Item)
       (r : List Inst),
      ensure U fuel typ db items = .ok (db1, r) →
      ensure U fuel typ db1 items = .ok (db1, r)) ∧
    (∀ (U : Registry) (fuel : Nat) (typ : String) (db db1 : DB) (items : List Item)
       (r : List Inst),
      db.noDupPk = true → ensure U fuel typ db items = .ok (db1, r) →
      db1.noDupPk = true) := by
  constructor
  · intro U fuel typ db db1 items r h
    exact (engine_stable fuel).1 U typ db items db1 r db1 h (dbLe_refl db1)
  · intro U fuel typ db db1 items r hnd h
    exact (engine_noDupPk fuel).1 U typ db items db1 r hnd h

/-- C6 (witness): ensuring the concrete `TestModel` mapping twice from the
empty store — the second call is the identity on the store and returns the
same single instance; keys stay duplicate-free. -/
theorem ensure_idempotent_witness :
    ∃ db1 r,
      ensure testU 100 "TestModel" emptyDB [.map dup1] = .ok (db1, r) ∧
      ensure testU 100 "TestModel" db1 [.map dup1] = .ok (db1, r) ∧
      emptyDB.noDupPk = true ∧ db1.noDupPk = true := by
  refine ⟨_, _, rfl,
    ensure_idempotent.1 testU 100 "TestModel" emptyDB _ [.map dup1] _ rfl,
    rfl,
    ensure_idempotent.2 testU 100 "TestModel" emptyDB _ [.map dup1] _ rfl rfl⟩
